import Mathlib

/-!
Verification development for the NASTRAN-Diff bulk-data record model
(`nastrandiff/__init__.py`).

Modelling conventions:
* Python strings are modelled as `List Char`.
* Python `float` is modelled as `ℚ` (exact rational arithmetic; binary64
  rounding, overflow to `inf` and `nan` are not modelled).
* A Python function that can raise an uncaught exception (`ValueError` from
  `int`/`float`, `KeyError`/`IndexError` from subscripts) is modelled as
  returning `Option` with `none` for the exception.
* The duplicate-key warning printed by `parse_bulk_data` is modelled as a
  list of warned keys returned alongside the table.
-/

namespace NastranDiff

/-- Python whitespace, as recognised by `str.strip` / `str.rstrip`. -/
def isPySpace (c : Char) : Bool :=
  c = ' ' || c = '\t' || c = '\n' || c = '\r' || c = '\x0b' || c = '\x0c'

/-- Python `str.lstrip()`. -/
def lstrip (s : List Char) : List Char := s.dropWhile isPySpace

/-- Python `str.rstrip()`. -/
def rstrip (s : List Char) : List Char := (s.reverse.dropWhile isPySpace).reverse

/-- Python `str.strip()`. -/
def pyStrip (s : List Char) : List Char := rstrip (lstrip s)

/-- A run of `n` spaces. -/
def spaces (n : ℕ) : List Char := List.replicate n ' '

/-- Python `"{:<w}".format(s)`: left-justify, pad with spaces to minimum
width `w`.  Note that Python format width is a minimum only: a longer string
is NOT truncated. -/
def ljust (w : ℕ) (s : List Char) : List Char := s ++ spaces (w - s.length)

/-- Python `"{:w}".format(v)` for a numeric `v`: right-justify to minimum
width `w`. -/
def rjust (w : ℕ) (s : List Char) : List Char := spaces (w - s.length) ++ s

/-- Decimal digit character for `d < 10`. -/
def digitChar (d : ℕ) : Char := Char.ofNat (48 + d)

/-- Fuelled most-significant-first decimal digit extraction. -/
def natDigitsAux : ℕ → ℕ → List Char
  | 0, _ => []
  | fuel + 1, n =>
    if n < 10 then [digitChar n] else natDigitsAux fuel (n / 10) ++ [digitChar (n % 10)]

/-- Decimal digits of a natural number (Python `str` of a nonnegative int). -/
def natDigits (n : ℕ) : List Char := natDigitsAux (n + 1) n

/-- Python `str` of an int. -/
def intRepr (i : ℤ) : List Char :=
  if i < 0 then '-' :: natDigits i.natAbs else natDigits i.natAbs

/-- Numeric value of a digit character. -/
def digitVal (c : Char) : ℕ := c.toNat - 48

/-- Accumulating decimal parse; `none` on the first non-digit character. -/
def digitsToNatAux : ℕ → List Char → Option ℕ
  | acc, [] => some acc
  | acc, c :: r => if c.isDigit then digitsToNatAux (acc * 10 + digitVal c) r else none

/-- All-digit string to `ℕ`; `none` when empty or a non-digit occurs. -/
def digitsToNat (s : List Char) : Option ℕ :=
  if s.isEmpty then none else digitsToNatAux 0 s

/-- Possibly-empty digit group (an absent group contributes the value 0). -/
def digitsOpt (s : List Char) : Option ℕ :=
  if s.isEmpty then some 0 else digitsToNat s

/-- Python `int(s)` on a stripped string: optional sign then digits; `none`
models `ValueError`.  (CPython additionally accepts `_` digit grouping,
which never occurs in NASTRAN decks and is not modelled.) -/
def pyInt : List Char → Option ℤ
  | '+' :: r => (digitsToNat r).map fun n => (n : ℤ)
  | '-' :: r => (digitsToNat r).map fun n => -(n : ℤ)
  | r => (digitsToNat r).map fun n => (n : ℤ)

/-- Split a string at the first `e`/`E`, returning the part before it and,
when present, the part after it. -/
def splitAtExp : List Char → List Char × Option (List Char)
  | [] => ([], none)
  | c :: r =>
    if c = 'e' || c = 'E' then ([], some r)
    else
      let p := splitAtExp r
      (c :: p.1, p.2)

/-- Split a string at the first `.`. -/
def splitAtDot : List Char → List Char × Option (List Char)
  | [] => ([], none)
  | c :: r =>
    if c = '.' then ([], some r)
    else
      let p := splitAtDot r
      (c :: p.1, p.2)

/-- Mantissa of a Python float literal: `digits[.digits]` or `.digits`, with
at least one digit overall; exact rational value. -/
def parseMantissa (s : List Char) : Option ℚ :=
  let p := splitAtDot s
  match p.2 with
  | none => (digitsToNat p.1).map fun n => (n : ℚ)
  | some fp =>
    if p.1.isEmpty && fp.isEmpty then none
    else do
      let i ← digitsOpt p.1
      let f ← digitsOpt fp
      pure ((i : ℚ) + (f : ℚ) / (10 : ℚ) ^ fp.length)

/-- Python `float(s)` on a stripped string, for finite numeric literals;
`none` models `ValueError`.  The exact decimal value is kept (CPython rounds
to binary64 and overflows to `inf`; neither is modelled). -/
def pyFloat (s : List Char) : Option ℚ := do
  let sp : ℚ × List Char :=
    match s with
    | '+' :: r => (1, r)
    | '-' :: r => (-1, r)
    | r => (1, r)
  let me := splitAtExp sp.2
  let mv ← parseMantissa me.1
  match me.2 with
  | none => pure (sp.1 * mv)
  | some es => do
    let ep : ℤ × List Char :=
      match es with
      | '+' :: r => (1, r)
      | '-' :: r => (-1, r)
      | r => (1, r)
    let e ← digitsToNat ep.2
    pure (sp.1 * mv * (10 : ℚ) ^ (ep.1 * (e : ℤ)))

/-- The typed value of one bulk-data field (spec §3 FieldValue). -/
inductive FieldValue
  | Integer : ℤ → FieldValue
  | Real : ℚ → FieldValue
  | Text : List Char → FieldValue
deriving DecidableEq

/-- MSC writes `D` for the exponent letter; the source does
`field.replace("D", "E")`. -/
def replaceDE (s : List Char) : List Char := s.map fun c => if c = 'D' then 'E' else c

/-- Embedding of the source's `re.sub` of pattern
`([.0-9])([-+])([0-9])` with replacement inserting `E` between the first and
second group (global, non-overlapping, left to right): restores the omitted
exponent letter of the compressed notation, e.g. `.70+1` becomes `.70E+1`. -/
def insertE : List Char → List Char
  | c1 :: c2 :: c3 :: r =>
    if (c1 = '.' || c1.isDigit) && (c2 = '-' || c2 = '+') && c3.isDigit then
      c1 :: 'E' :: c2 :: c3 :: insertE r
    else c1 :: insertE (c2 :: c3 :: r)
  | l => l

/-- Embedding of `NastranDiff.parse_field`: trim; a field starting with a
sign, digit or dot is numeric, and it is Real iff it contains a dot;
everything else is Text.  `none` models the `ValueError` that `int()` /
`float()` raise on a numeric-looking but malformed field. -/
def parse_field (field : List Char) : Option FieldValue :=
  let field := pyStrip field
  match field with
  | [] => some (.Text [])
  | c :: _ =>
    if c = '-' || c = '+' || c = '.' || c.isDigit then
      if '.' ∈ field then (pyFloat (insertE (replaceDE field))).map .Real
      else (pyInt field).map .Integer
    else some (.Text field)

-- Development sanity checks against the repository's unit tests
-- (test_nastrandiff.test_parse_field).
unseal Rat.add Rat.mul Rat.inv Rat.sub in
example : parse_field "7.0".toList = some (.Real 7) := by decide

unseal Rat.add Rat.mul Rat.inv Rat.sub in
example : parse_field ".7E1".toList = some (.Real 7) := by decide

unseal Rat.add Rat.mul Rat.inv Rat.sub in
example : parse_field "0.7+1".toList = some (.Real 7) := by decide

unseal Rat.add Rat.mul Rat.inv Rat.sub in
example : parse_field "70.-1".toList = some (.Real 7) := by decide

example : parse_field "800".toList = some (.Integer 800) := by decide

example : parse_field "TEST    ".toList = some (.Text "TEST".toList) := by decide

example : parse_field "        ".toList = some (.Text []) := by decide

unseal Rat.add Rat.mul Rat.inv Rat.sub in
example : parse_field "2.193363961D+06".toList = some (.Real (2193363961 / 1000)) := by
  decide

example : parse_field "1B".toList = none := by decide

/-- Normalised scientific decomposition used by the Python format machinery:
for `0 < q`, the pair `(n, e)` with `n` the mantissa rounded to `p + 1`
significant digits (so `10^p ≤ n < 10^(p+1)`) and `e` the decimal exponent,
i.e. `q ≈ (n / 10^p) * 10^e`.  Rounding of the exact rational is
round-half-up (`round`); CPython rounds the binary64 value half-to-even —
the difference is immaterial to every property proved here. -/
def sciDigits (q : ℚ) (p : ℕ) : ℕ × ℤ :=
  let e := Int.log 10 q
  let n := (round (q * (10 : ℚ) ^ ((p : ℤ) - e))).toNat
  if 10 ^ (p + 1) ≤ n then (n / 10, e + 1) else (n, e)

/-- Exponent digits: at least two, zero-padded. -/
def expDigits (e : ℤ) : List Char :=
  if (natDigits e.natAbs).length < 2 then '0' :: natDigits e.natAbs else natDigits e.natAbs

/-- Exponent field `Xsdd…`: marker character, sign, padded digits. -/
def expPart (ec : Char) (e : ℤ) : List Char :=
  ec :: (if e < 0 then '-' else '+') :: expDigits e

/-- Python `"{:<w.pE}".format(q)` for `0 ≤ q`: scientific notation with `p`
fractional mantissa digits (none and no point when `p = 0`), sign and at
least two digits in the exponent, left-justified to minimum width `w`. -/
def pyFormatE (q : ℚ) (p : ℕ) (w : ℕ) : List Char :=
  if q = 0 then
    ljust w (('0' :: (if p = 0 then [] else '.' :: List.replicate p '0')) ++ ['E', '+', '0', '0'])
  else
    ljust w (((natDigits (sciDigits q p).1).take 1 ++
      (if p = 0 then [] else '.' :: (natDigits (sciDigits q p).1).drop 1)) ++
        expPart 'E' (sciDigits q p).2)

/-- Remove trailing `0` characters. -/
def stripZeros (s : List Char) : List Char := (s.reverse.dropWhile (· = '0')).reverse

/-- Python `"{:<w.p}".format(q)` for `0 ≤ q` with `1 ≤ p`: the None
presentation type — like `g` (`p` significant digits, trailing zeros
removed, fixed notation iff `-4 ≤ exp < p`) except that fixed notation
keeps at least one digit after the decimal point. -/
def pyFormatGeneral (q : ℚ) (p : ℕ) (w : ℕ) : List Char :=
  if q = 0 then ljust w ['0', '.', '0']
  else
    if -4 ≤ (sciDigits q (p - 1)).2 ∧ (sciDigits q (p - 1)).2 < (p : ℤ) then
      if (sciDigits q (p - 1)).2 < 0 then
        ljust w ('0' :: '.' :: (List.replicate ((sciDigits q (p - 1)).2 + 1).natAbs '0' ++
          stripZeros (natDigits (sciDigits q (p - 1)).1)))
      else
        ljust w ((natDigits (sciDigits q (p - 1)).1).take ((sciDigits q (p - 1)).2.toNat + 1) ++
          '.' ::
          (if (stripZeros ((natDigits (sciDigits q (p - 1)).1).drop
              ((sciDigits q (p - 1)).2.toNat + 1))).isEmpty then ['0']
           else stripZeros ((natDigits (sciDigits q (p - 1)).1).drop
              ((sciDigits q (p - 1)).2.toNat + 1))))
    else
      ljust w ((natDigits (sciDigits q (p - 1)).1).take 1 ++
        (if (stripZeros ((natDigits (sciDigits q (p - 1)).1).drop 1)).isEmpty then []
         else '.' :: stripZeros ((natDigits (sciDigits q (p - 1)).1).drop 1)) ++
        expPart 'e' (sciDigits q (p - 1)).2)

/-- Embedding of one application of the source's `re.sub("[0-9]E", "E", txt)`
(global, non-overlapping, left to right): each digit immediately followed by
an `E` is removed. -/
def subDigitE : List Char → List Char
  | c1 :: c2 :: r =>
    if c1.isDigit && c2 = 'E' then 'E' :: subDigitE r else c1 :: subDigitE (c2 :: r)
  | l => l

/-- Embedding of the loop `while len(txt) > width: txt = m.sub("E", txt)`
from `format_float_nastran`.  The fuel (initialised to the string length)
makes the function total; when the substitution stops shortening the string
— where CPython would loop forever, unreachable for the strings this loop
is actually applied to — the string is returned unchanged. -/
def stripPrecisionAux : ℕ → ℕ → List Char → List Char
  | 0, _, s => s
  | fuel + 1, width, s =>
    if s.length ≤ width then s
    else if (subDigitE s).length < s.length then stripPrecisionAux fuel width (subDigitE s)
    else s

def stripPrecision (width : ℕ) (s : List Char) : List Char :=
  stripPrecisionAux s.length width s

/-- Python `txt.replace("E", ".E")`. -/
def replaceEdotE : List Char → List Char
  | [] => []
  | c :: r => if c = 'E' then '.' :: 'E' :: replaceEdotE r else c :: replaceEdotE r

/-- The body of `format_float_nastran` after sign handling: `s` is the sign
prefix already emitted (`[]` or `['-']`), `f` the (now nonnegative)
magnitude, `rw` the remaining width, `width` the full target width used by
the precision-stripping loop and the final truncation.  Four magnitude
regimes: scientific for huge values with iterative precision stripping, the
literal `0.0` below `1e-99`, scientific with maximal precision then
stripping for tiny values, fixed notation otherwise. -/
def format_float_core (s : List Char) (f : ℚ) (rw width : ℕ) : List Char :=
  if (10 : ℚ) ^ ((rw : ℤ) - 5) ≤ f then
    if '.' ∈ s ++ pyFormatE f 6 rw then stripPrecision width (s ++ pyFormatE f 6 rw)
    else replaceEdotE (s ++ pyFormatE f 6 rw)
  else if f < (10 : ℚ) ^ (-99 : ℤ) then
    s ++ ['0', '.', '0']
  else if f < (10 : ℚ) ^ ((4 : ℤ) - (rw : ℤ)) then
    stripPrecision width (s ++ pyFormatE f rw 0)
  else
    (if '.' ∈ s ++ pyFormatGeneral f (rw - 1) (rw - 1) then
      s ++ pyFormatGeneral f (rw - 1) (rw - 1)
     else pyStrip (s ++ pyFormatGeneral f (rw - 1) (rw - 1)) ++ ['.']).take width

/-- Embedding of `NastranDiff.format_float_nastran` over exact rationals:
a negative value emits a leading `-` and reduces the remaining width by
one; the result is space-padded to exactly `width` at the end (never
shortened by the padding step). -/
def format_float_nastran (f : ℚ) (width : ℕ := 8) : List Char :=
  if f < 0 then ljust width (format_float_core ['-'] (-f) (width - 1) width)
  else ljust width (format_float_core [] f width width)

/-- Python `str(float)` — the shortest decimal that round-trips binary64 —
has no exact counterpart over `ℚ`; modelled as an exact rendering: an
integral value renders as `n.0` (which agrees with CPython), any other
value as `num/den`.  It is only reachable when a canonical-key field is a
Real, which no claim exercises concretely. -/
def pyFloatStr (q : ℚ) : List Char :=
  if q.den = 1 then intRepr q.num ++ ['.', '0']
  else intRepr q.num ++ '/' :: natDigits q.den

/-- Python `"{:8}".format(v)` as used by `parse_bulk_data` to build
canonical keys: numbers right-justify, strings left-justify, to minimum
width 8. -/
def formatKeyField (v : FieldValue) : List Char :=
  match v with
  | .Integer i => rjust 8 (intRepr i)
  | .Real q => rjust 8 (pyFloatStr q)
  | .Text t => ljust 8 t

/-- Embedding of `NastranDiff.format_bde`: the record name left-justified to
8 characters, then each field — Reals via `format_float_nastran`, Integers
and Text via `"{:<8}"` (left-justified, padded to minimum width 8, NOT
truncated when longer). -/
def format_bde (bde_name : List Char) (fields : List FieldValue) : List Char :=
  ljust 8 bde_name ++
    (fields.map fun v =>
      match v with
      | .Real q => format_float_nastran q 8
      | .Integer i => ljust 8 (intRepr i)
      | .Text t => ljust 8 t).flatten


/-- Option-valued effectful map, modelling a Python list comprehension in
which the element transformer may raise (left to right, aborting on the
first exception). -/
def mapMO {a b : Type} (f : a → Option b) : List a → Option (List b)
  | [] => some []
  | x :: r => do
    let y ← f x
    let rest ← mapMO f r
    pure (y :: rest)

/-- Name extraction shared by both line parsers: cut off a `*` wide-field
marker (Python `tok[0:tok.find("*")]` under `if "*" in tok`), then trim. -/
def stripStar (tok : List Char) : List Char :=
  pyStrip (if '*' ∈ tok then tok.takeWhile (· ≠ '*') else tok)

/-- The field width chosen by `parse_fixed_field_format_line`: 16 when the
first 8 characters contain a `*`, else 8. -/
def fieldWidth (line : List Char) : ℕ := if '*' ∈ line.take 8 then 16 else 8

/-- Python `line.split("$")[0]` under `if "$" in line`. -/
def stripComment (line : List Char) : List Char :=
  if '$' ∈ line then line.takeWhile (· ≠ '$') else line

/-- Pad a line shorter than 72 characters with spaces up to 72. -/
def padTo72 (line : List Char) : List Char :=
  if line.length < 72 then line ++ spaces (72 - line.length) else line

/-- Embedding of `NastranDiff.parse_fixed_field_format_line`: the name is
the first 8 characters (a `*` marks 16-wide fields and is cut off), an
inline `$` comment is removed, the line is padded to 72 characters, and the
fields are the `field_width`-wide slices from column 9 to column 72 (Python
`range(8, min(len(line), 72), field_width)`); continuation iff the trimmed
name is empty or contains `+`.  `none` models a `ValueError` escaping from
`parse_field`. -/
def parse_fixed_field_format_line (line : List Char) :
    Option (List Char × List FieldValue × Bool) :=
  (mapMO
      (fun i => parse_field (((padTo72 (stripComment line)).drop i).take (fieldWidth line)))
      (List.range' 8
        ((min (padTo72 (stripComment line)).length 72 - 8 + (fieldWidth line - 1)) /
          fieldWidth line)
        (fieldWidth line))).map
    fun fields =>
      (stripStar (line.take 8), fields,
        (stripStar (line.take 8)).isEmpty || (stripStar (line.take 8)).contains '+')

/-- Split a string on every occurrence of a separator character (Python
`str.split(sep)`); always returns at least one piece. -/
def splitOnChar (sep : Char) : List Char → List (List Char)
  | [] => [[]]
  | c :: r =>
    match splitOnChar sep r with
    | [] => [[]]
    | h :: t => if c = sep then [] :: h :: t else (c :: h) :: t

/-- Embedding of `NastranDiff.parse_free_field_format_line`: split on `,`;
the first token (with a `*` wide-marker cut off, trimmed) is the name, the
remaining tokens are the fields; same continuation rule as the fixed-field
variant. -/
def parse_free_field_format_line (line : List Char) :
    Option (List Char × List FieldValue × Bool) :=
  match splitOnChar ',' line with
  | [] => none
  | name0 :: rest =>
    (mapMO parse_field rest).map
      fun fields =>
        (stripStar name0, fields,
          (stripStar name0).isEmpty || (stripStar name0).contains '+')

/-- The static multi-field canonical-key table of `parse_bulk_data`
(record name → extra 0-based field indices appended to the key). -/
def multi_field_keys : List (List Char × List ℕ) :=
  [("PLOAD4".toList, [1]), ("FORCE".toList, [1]), ("SPC".toList, [1]),
   ("SPC1".toList, [2]), ("TEMP".toList, [1]), ("MPC".toList, [1]),
   ("DMIG".toList, [1, 2])]

/-- Membership test and lookup in `multi_field_keys`. -/
def lookupKeys (name : List Char) : Option (List ℕ) :=
  (multi_field_keys.find? fun p => p.1 == name).map (·.2)

/-- The canonical key computed in the non-continuation branch of
`parse_bulk_data`: record name, then the 8-wide rendering of the first
field, then — for the record types of `multi_field_keys` — the renderings
of the designated extra field indices.  `none` models the `IndexError`
raised when a designated field is absent. -/
def derive_key (bde_name : List Char) (fields : List FieldValue) : Option (List Char) := do
  let f0 ← fields.head?
  let key := bde_name ++ formatKeyField f0
  match lookupKeys bde_name with
  | none => pure key
  | some idxs => do
    let vs ← mapMO (fun i => fields.get? i) idxs
    pure (key ++ (vs.map formatKeyField).flatten)

/-- Key sequence of an insertion-ordered dictionary. -/
def dictKeys (d : List (List Char × List Char)) : List (List Char) := d.map (·.1)

/-- Dictionary lookup (first match). -/
def dictLookup (k : List Char) : List (List Char × List Char) → Option (List Char)
  | [] => none
  | p :: r => if p.1 = k then some p.2 else dictLookup k r

/-- Python dict assignment `d[k] = v`: replace in place when the key is
present (a dict keeps the original insertion position), else append. -/
def dictInsert (k : List Char) (v : List Char) :
    List (List Char × List Char) → List (List Char × List Char)
  | [] => [(k, v)]
  | p :: r => if p.1 = k then (k, v) :: r else p :: dictInsert k v r

/-- Loop state of `parse_bulk_data`: the table built so far, the current
key cursor (initially the empty string), and the duplicate-key warnings
surfaced so far (the source prints them; modelled as data). -/
structure BulkState where
  data : List (List Char × List Char)
  key : List Char
  warnings : List (List Char)
deriving DecidableEq

/-- Initial state of the `parse_bulk_data` loop. -/
def initState : BulkState := ⟨[], [], []⟩

/-- The per-line preprocessing of `parse_bulk_data`: strip an inline `$`
comment, then trailing whitespace. -/
def preprocess_line (line : List Char) : List Char :=
  rstrip (stripComment line)

/-- The per-line dispatch of `parse_bulk_data` (spec §4.3): a line is
free-field iff it contains a comma, otherwise fixed-field. -/
def parse_any_line (line : List Char) : Option (List Char × List FieldValue × Bool) :=
  if ',' ∈ line then parse_free_field_format_line line
  else parse_fixed_field_format_line line

/-- One iteration of the `for line in bulk` loop of
`NastranDiff.parse_bulk_data`: preprocess; skip blank lines; parse; a
continuation line is appended (on a new text line) to the record open under
the cursor key — `none` models the `KeyError` when no such record exists —
and a fresh record derives its canonical key, warns when the key is already
present, and (over)writes the table at that key. -/
def process_bulk_line (st : BulkState) (line : List Char) : Option BulkState :=
  if (preprocess_line line).isEmpty then some st
  else do
    let parsed ← parse_any_line (preprocess_line line)
    let bde_name := parsed.1
    let fields := parsed.2.1
    let continuation := parsed.2.2
    if continuation then do
      let old ← dictLookup st.key st.data
      pure { st with data := dictInsert st.key (old ++ '\n' :: format_bde [] fields) st.data }
    else do
      let key ← derive_key bde_name fields
      let warnings :=
        if (dictLookup key st.data).isSome then st.warnings ++ [key] else st.warnings
      pure ⟨dictInsert key (format_bde bde_name fields) st.data, key, warnings⟩

/-- Embedding of `NastranDiff.parse_bulk_data`: fold the line processor
over the deck.  The result is the key→text table together with the list of
duplicate-key warnings; `none` models an uncaught exception aborting the
whole parse. -/
def parse_bulk_data (bulk : List (List Char)) :
    Option (List (List Char × List Char) × List (List Char)) :=
  (bulk.foldlM process_bulk_line initState).map fun st => (st.data, st.warnings)

/-- Embedding of `NastranDiff.remove_continuations`: when the stored text
has continuation lines, concatenate them onto the first line with each
continuation line's first `width` characters (the blank name column)
removed. -/
def remove_continuations (bde : List Char) (width : ℕ := 8) : List Char :=
  if '\n' ∉ bde then bde
  else
    match splitOnChar '\n' bde with
    | [] => []
    | l0 :: rest => l0 ++ (rest.map fun l => l.drop width).flatten

/-- Strict lexicographic comparison of strings by code point — Python `<`
on `str`. -/
def keyLtb : List Char → List Char → Bool
  | [], [] => false
  | [], _ :: _ => true
  | _ :: _, [] => false
  | a :: as, b :: bs => if a < b then true else if b < a then false else keyLtb as bs

/-- The non-strict key order used for sorting (total preorder companion of
`keyLtb`). -/
def keyLe (a b : List Char) : Prop := keyLtb b a = false

instance : DecidableRel keyLe :=
  fun a b => inferInstanceAs (Decidable (keyLtb b a = false))

/-- Python `sorted` over the keys of a table (modelled by insertion sort;
any correct ascending sort of distinct keys produces the same sequence). -/
def sortedKeys (d : List (List Char × List Char)) : List (List Char) :=
  List.insertionSort keyLe (dictKeys d)

/-- One iteration of the first loop of `compare_bulk`, over a sorted key of
table 1: a key present in both tables appends the two stored texts to the
changed pair when the continuation-stripped texts differ; a key absent from
table 2 goes to the left-only list. -/
def diffStep (bulk1 bulk2 : List (List Char × List Char))
    (acc : List (List Char) × List (List Char) × List (List Char)) (bde : List Char) :
    List (List Char) × List (List Char) × List (List Char) :=
  match dictLookup bde bulk2 with
  | some t2 =>
    if remove_continuations ((dictLookup bde bulk1).getD []) ≠ remove_continuations t2 then
      (acc.1 ++ [(dictLookup bde bulk1).getD []], acc.2.1 ++ [t2], acc.2.2)
    else acc
  | none => (acc.1, acc.2.1, acc.2.2 ++ [(dictLookup bde bulk1).getD []])

/-- One iteration of the second loop of `compare_bulk`, over a sorted key
of table 2: keys absent from table 1 go to the right-only list. -/
def uniqueStep (bulk1 bulk2 : List (List Char × List Char))
    (acc : List (List Char)) (bde : List Char) : List (List Char) :=
  if (dictLookup bde bulk1).isSome then acc
  else acc ++ [(dictLookup bde bulk2).getD []]

/-- Embedding of the table-level part of `NastranDiff.compare_bulk` (after
both decks are parsed): fold `diffStep` over the ascending keys of table 1,
then `uniqueStep` over the ascending keys of table 2. -/
def compare_tables (bulk1 bulk2 : List (List Char × List Char)) :
    List (List Char) × List (List Char) × List (List Char) × List (List Char) :=
  (((sortedKeys bulk1).foldl (diffStep bulk1 bulk2) ([], [], [])).1,
   ((sortedKeys bulk1).foldl (diffStep bulk1 bulk2) ([], [], [])).2.1,
   ((sortedKeys bulk1).foldl (diffStep bulk1 bulk2) ([], [], [])).2.2,
   (sortedKeys bulk2).foldl (uniqueStep bulk1 bulk2) [])

/-- Embedding of `NastranDiff.compare_bulk`: parse both decks, then compare
the two tables; returns `(diff1, diff2, file1unique, file2unique)`. -/
def compare_bulk (bulk1 bulk2 : List (List Char)) :
    Option (List (List Char) × List (List Char) × List (List Char) × List (List Char)) := do
  let p1 ← parse_bulk_data bulk1
  let p2 ← parse_bulk_data bulk2
  pure (compare_tables p1.1 p2.1)

/-- Classification used by the first loop of `compare_bulk`: key present in
table 2 whose continuation-stripped text differs from table 1's. -/
def changedKeyB (bulk1 bulk2 : List (List Char × List Char)) (bde : List Char) : Bool :=
  (dictLookup bde bulk2).isSome &&
    decide (remove_continuations ((dictLookup bde bulk1).getD []) ≠
      remove_continuations ((dictLookup bde bulk2).getD []))

/-- Key absent from table 2 (left-only classification of the first loop). -/
def missing2B (bulk2 : List (List Char × List Char)) (bde : List Char) : Bool :=
  !(dictLookup bde bulk2).isSome

/-- Key absent from table 1 (right-only classification of the second loop). -/
def missing1B (bulk1 : List (List Char × List Char)) (bde : List Char) : Bool :=
  !(dictLookup bde bulk1).isSome

/-- First table of the concrete comparison example: keys A (changed),
B (identical) and C (left-only). -/
def exTable1 : List (List Char × List Char) :=
  [("A".toList, "a1".toList), ("B".toList, "b".toList), ("C".toList, "c1".toList)]

/-- Second table of the concrete comparison example: keys A (changed),
B (identical) and D (right-only). -/
def exTable2 : List (List Char × List Char) :=
  [("A".toList, "a2".toList), ("B".toList, "b".toList), ("D".toList, "d2".toList)]


/-! ### Basic facts about the string primitives -/

lemma spaces_length (n : ℕ) : (spaces n).length = n := List.length_replicate n ' '

lemma ljust_length (w : ℕ) (s : List Char) : (ljust w s).length = max s.length w := by
  simp only [ljust, List.length_append, spaces_length]
  omega

lemma ljust_of_le {w : ℕ} {s : List Char} (h : w ≤ s.length) : ljust w s = s := by
  simp [ljust, Nat.sub_eq_zero_of_le h, spaces]

lemma mem_ljust_of_mem {c : Char} {s : List Char} (w : ℕ) (h : c ∈ s) : c ∈ ljust w s := by
  simp [ljust, h]

lemma ljust_length_of_le {w : ℕ} {s : List Char} (h : s.length ≤ w) :
    (ljust w s).length = w := by
  rw [ljust_length]; omega

lemma digitChar_isDigit {d : ℕ} (h : d < 10) : (digitChar d).isDigit = true := by
  interval_cases d <;> decide

lemma digitChar_ne_zero {d : ℕ} (h1 : 0 < d) (h2 : d < 10) : digitChar d ≠ '0' := by
  interval_cases d <;> decide

lemma isDigit_ne_E {c : Char} (h : c.isDigit = true) : c ≠ 'E' := by
  intro rfl_h; rw [rfl_h] at h; exact absurd h (by decide)

lemma isDigit_ne_dot {c : Char} (h : c.isDigit = true) : c ≠ '.' := by
  intro rfl_h; rw [rfl_h] at h; exact absurd h (by decide)

/-! ### Decimal digit strings -/

lemma natDigitsAux_spec :
    ∀ (p fuel n : ℕ), p < fuel → 10 ^ p ≤ n → n < 10 ^ (p + 1) →
      (natDigitsAux fuel n).length = p + 1 ∧ (∀ c ∈ natDigitsAux fuel n, c.isDigit = true) ∧
        ∃ c ∈ natDigitsAux fuel n, c ≠ '0' := by
  intro p
  induction p with
  | zero =>
    intro fuel n hfuel h1 h2
    obtain ⟨f, rfl⟩ := Nat.exists_eq_succ_of_ne_zero (Nat.pos_iff_ne_zero.mp hfuel)
    have h10 : n < 10 := by simpa using h2
    simp only [natDigitsAux, if_pos h10]
    refine ⟨rfl, ?_, ⟨digitChar n, by simp, digitChar_ne_zero (by simpa using h1) h10⟩⟩
    intro c hc
    simp only [List.mem_singleton] at hc
    exact hc ▸ digitChar_isDigit h10
  | succ p ih =>
    intro fuel n hfuel h1 h2
    obtain ⟨f, rfl⟩ : ∃ f, fuel = f + 1 := ⟨fuel - 1, by omega⟩
    have hge10 : 10 ≤ n := by
      have h10 : (10:ℕ) ^ 1 ≤ 10 ^ (p + 1) := Nat.pow_le_pow_right (by norm_num) (by omega)
      simp only [pow_one] at h10
      omega
    have hnot : ¬ n < 10 := by omega
    simp only [natDigitsAux, if_neg hnot]
    have hdiv1 : 10 ^ p ≤ n / 10 := by
      rw [Nat.le_div_iff_mul_le (by norm_num)]
      calc 10 ^ p * 10 = 10 ^ (p + 1) := by ring
        _ ≤ n := h1
    have hdiv2 : n / 10 < 10 ^ (p + 1) := by
      rw [Nat.div_lt_iff_lt_mul (by norm_num)]
      calc n < 10 ^ (p + 1 + 1) := h2
        _ = 10 ^ (p + 1) * 10 := by ring
    obtain ⟨hlen, hdig, c, hc, hc0⟩ := ih f (n / 10) (by omega) hdiv1 hdiv2
    refine ⟨by simp [hlen], ?_, ⟨c, by simp [hc], hc0⟩⟩
    intro d hd
    rcases List.mem_append.mp hd with h | h
    · exact hdig d h
    · simp only [List.mem_singleton] at h
      exact h ▸ digitChar_isDigit (Nat.mod_lt _ (by norm_num))

lemma natDigits_spec {p n : ℕ} (h1 : 10 ^ p ≤ n) (h2 : n < 10 ^ (p + 1)) :
    (natDigits n).length = p + 1 ∧ (∀ c ∈ natDigits n, c.isDigit = true) ∧
      ∃ c ∈ natDigits n, c ≠ '0' := by
  have hp : p < n + 1 := by
    have := Nat.lt_pow_self (show (1:ℕ) < 10 by norm_num) p
    omega
  exact natDigitsAux_spec p (n + 1) n hp h1 h2

lemma natDigits_exists_exponent {n : ℕ} (h : n ≠ 0) :
    ∃ p, 10 ^ p ≤ n ∧ n < 10 ^ (p + 1) ∧ p = Nat.log 10 n :=
  ⟨Nat.log 10 n, Nat.pow_log_le_self 10 h, Nat.lt_pow_succ_log_self (by norm_num) n, rfl⟩

lemma natDigits_length_le {n k : ℕ} (hn : n ≠ 0) (h : n < 10 ^ k) :
    (natDigits n).length ≤ k := by
  obtain ⟨p, h1, h2, _⟩ := natDigits_exists_exponent hn
  obtain ⟨hlen, -, -⟩ := natDigits_spec h1 h2
  rw [hlen]
  by_contra hcon
  push_neg at hcon
  have : 10 ^ k ≤ 10 ^ p := Nat.pow_le_pow_right (by norm_num) (by omega)
  omega

lemma natDigits_length_pos (n : ℕ) : 0 < (natDigits n).length := by
  rcases Nat.eq_zero_or_pos n with rfl | h
  · decide
  · obtain ⟨p, h1, h2, _⟩ := natDigits_exists_exponent h.ne'
    obtain ⟨hlen, -, -⟩ := natDigits_spec h1 h2
    omega

lemma natDigits_all_digit (n : ℕ) : ∀ c ∈ natDigits n, c.isDigit = true := by
  rcases Nat.eq_zero_or_pos n with rfl | h
  · decide
  · obtain ⟨p, h1, h2, _⟩ := natDigits_exists_exponent h.ne'
    exact (natDigits_spec h1 h2).2.1

/-! ### The scientific decomposition -/

lemma sciDigits_spec {q : ℚ} (hq : 0 < q) (p : ℕ) :
    10 ^ p ≤ (sciDigits q p).1 ∧ (sciDigits q p).1 < 10 ^ (p + 1) ∧
      Int.log 10 q ≤ (sciDigits q p).2 ∧ (sciDigits q p).2 ≤ Int.log 10 q + 1 := by
  have hb10 : ((10 : ℕ) : ℚ) = (10 : ℚ) := by norm_num
  set e := Int.log 10 q with he
  set x : ℚ := q * (10 : ℚ) ^ ((p : ℤ) - e) with hx
  have hpow_pos : (0 : ℚ) < (10 : ℚ) ^ ((p : ℤ) - e) := zpow_pos (by norm_num) _
  have hq_low : (10 : ℚ) ^ e ≤ q := by
    have := Int.zpow_log_le_self (by norm_num : (1 : ℕ) < 10) hq
    rwa [hb10] at this
  have hq_high : q < (10 : ℚ) ^ (e + 1) := by
    have := Int.lt_zpow_succ_log_self (by norm_num : (1 : ℕ) < 10) q
    rwa [hb10] at this
  have hx_low : (10 : ℚ) ^ ((p : ℤ)) ≤ x := by
    calc (10 : ℚ) ^ ((p : ℤ)) = (10 : ℚ) ^ e * (10 : ℚ) ^ ((p : ℤ) - e) := by
          rw [← zpow_add₀ (by norm_num : (10:ℚ) ≠ 0)]; ring_nf
      _ ≤ q * (10 : ℚ) ^ ((p : ℤ) - e) := by
          exact mul_le_mul_of_nonneg_right hq_low hpow_pos.le
  have hx_high : x < (10 : ℚ) ^ ((p : ℤ) + 1) := by
    calc x < (10 : ℚ) ^ (e + 1) * (10 : ℚ) ^ ((p : ℤ) - e) := by
          exact mul_lt_mul_of_pos_right hq_high hpow_pos
      _ = (10 : ℚ) ^ ((p : ℤ) + 1) := by
          rw [← zpow_add₀ (by norm_num : (10:ℚ) ≠ 0)]; ring_nf
  have hround := abs_sub_round x
  rw [abs_le] at hround
  set r : ℤ := round x with hr
  have hcast_p : ((10 ^ p : ℤ) : ℚ) = (10 : ℚ) ^ ((p : ℤ)) := by
    push_cast [zpow_natCast]; ring
  have hcast_p1 : ((10 ^ (p + 1) : ℤ) : ℚ) = (10 : ℚ) ^ ((p : ℤ) + 1) := by
    rw [show ((p : ℤ) + 1) = ((p + 1 : ℕ) : ℤ) by push_cast; ring, zpow_natCast]
    push_cast; ring
  have hr_low : (10 ^ p : ℤ) ≤ r := by
    have h1 : ((10 ^ p : ℤ) : ℚ) - 1 < (r : ℚ) := by
      rw [hcast_p]; linarith [hround.1, hround.2]
    have h2 : (10 ^ p : ℤ) - 1 < r := by exact_mod_cast (by push_cast at h1 ⊢; linarith : ((10 ^ p - 1 : ℤ) : ℚ) < (r : ℚ))
    omega
  have hr_high : r ≤ 10 ^ (p + 1) := by
    have h1 : (r : ℚ) < ((10 ^ (p + 1) : ℤ) : ℚ) + 1 := by
      rw [hcast_p1]; linarith [hround.1, hround.2]
    have h2 : r < 10 ^ (p + 1) + 1 := by exact_mod_cast (by push_cast at h1 ⊢; linarith : ((r : ℤ) : ℚ) < ((10 ^ (p + 1) + 1 : ℤ) : ℚ))
    omega
  have hn_low : 10 ^ p ≤ r.toNat := by
    have hP : ((10 : ℕ) ^ p : ℤ) = (10 ^ p : ℤ) := by push_cast; ring
    omega
  have hn_high : r.toNat ≤ 10 ^ (p + 1) := by
    have hP : ((10 : ℕ) ^ (p + 1) : ℤ) = (10 ^ (p + 1) : ℤ) := by push_cast; ring
    omega
  have hgoal : sciDigits q p =
      if 10 ^ (p + 1) ≤ r.toNat then (r.toNat / 10, e + 1) else (r.toNat, e) := rfl
  rw [hgoal]
  by_cases hcase : 10 ^ (p + 1) ≤ r.toNat
  · have heq : r.toNat = 10 ^ (p + 1) := le_antisymm hn_high hcase
    rw [if_pos hcase, heq]
    have hdiv : 10 ^ (p + 1) / 10 = 10 ^ p := by
      rw [pow_succ, Nat.mul_div_cancel _ (by norm_num)]
    refine ⟨by rw [hdiv], by rw [hdiv]; exact Nat.pow_lt_pow_succ (by norm_num), by omega, by omega⟩
  · rw [if_neg hcase]
    exact ⟨hn_low, by omega, le_refl e, by omega⟩

/-! ### Exponent rendering -/

lemma expDigits_length_ge (e : ℤ) : 2 ≤ (expDigits e).length := by
  have := natDigits_length_pos e.natAbs
  unfold expDigits
  split
  · simp; omega
  · omega

lemma expDigits_length_le {e : ℤ} (h : e.natAbs < 1000) : (expDigits e).length ≤ 3 := by
  unfold expDigits
  have hle : (natDigits e.natAbs).length ≤ 3 := by
    rcases Nat.eq_zero_or_pos e.natAbs with h0 | hpos
    · rw [h0]; decide
    · exact natDigits_length_le hpos.ne' (by norm_num1; omega)
  split
  · simpa using by omega
  · exact hle

lemma expDigits_length_eq_two {e : ℤ} (h : e.natAbs < 100) : (expDigits e).length = 2 := by
  unfold expDigits
  have hle : (natDigits e.natAbs).length ≤ 2 := by
    rcases Nat.eq_zero_or_pos e.natAbs with h0 | hpos
    · rw [h0]; decide
    · exact natDigits_length_le hpos.ne' (by norm_num1; omega)
  have hpos := natDigits_length_pos e.natAbs
  split
  · simp; omega
  · omega

lemma expDigits_all_digit (e : ℤ) : ∀ c ∈ expDigits e, c.isDigit = true := by
  unfold expDigits
  intro c hc
  split at hc
  · rcases List.mem_cons.mp hc with rfl | h
    · decide
    · exact natDigits_all_digit _ c h
  · exact natDigits_all_digit _ c hc

lemma E_not_mem_expTail (e : ℤ) :
    'E' ∉ ((if e < 0 then '-' else '+') :: expDigits e) := by
  intro h
  rcases List.mem_cons.mp h with h | h
  · split at h <;> exact absurd h (by decide)
  · exact absurd (expDigits_all_digit e 'E' h) (by decide)

/-! ### Structure of the scientific format -/

lemma pyFormatE_eq {q : ℚ} (hq : 0 < q) {p : ℕ} (hp : 0 < p) (w : ℕ) :
    ∃ d0 ds e,
      pyFormatE q p w =
        ljust w (d0 :: '.' :: (ds ++ 'E' :: (if e < 0 then '-' else '+') :: expDigits e)) ∧
      ds.length = p ∧ (∀ c ∈ ds, c.isDigit = true) ∧ d0.isDigit = true ∧
      Int.log 10 q ≤ e ∧ e ≤ Int.log 10 q + 1 := by
  obtain ⟨h1, h2, h3, h4⟩ := sciDigits_spec hq p
  obtain ⟨hlen, hdig, -⟩ := natDigits_spec h1 h2
  obtain ⟨d0, tl, hcons⟩ := List.exists_cons_of_ne_nil
    (List.ne_nil_of_length_pos (by rw [hlen]; omega) : natDigits (sciDigits q p).1 ≠ [])
  refine ⟨d0, tl, (sciDigits q p).2, ?_, ?_, ?_, ?_, h3, h4⟩
  · unfold pyFormatE
    rw [if_neg hq.ne', hcons]
    simp only [List.take_cons, List.take_zero, List.drop_succ_cons, List.drop_zero,
      if_neg hp.ne', expPart]
    rfl
  · have := hcons ▸ hlen
    simpa using this
  · intro c hc
    exact hdig c (hcons ▸ List.mem_cons_of_mem d0 hc)
  · exact hdig d0 (hcons ▸ List.mem_cons_self d0 tl)

/-! ### The precision-stripping loop -/

lemma subDigitE_no_E : ∀ {l : List Char}, 'E' ∉ l → subDigitE l = l := by
  intro l
  induction l with
  | nil => intro _; rfl
  | cons c r ih =>
    intro h
    cases r with
    | nil => rfl
    | cons c2 rest =>
      have hc2 : c2 ≠ 'E' := by
        intro heq
        exact h (by simp [heq])
      have hr : 'E' ∉ c2 :: rest := fun hm => h (List.mem_cons_of_mem _ hm)
      simp only [subDigitE, hc2, decide_False, Bool.and_false, Bool.false_eq_true,
        if_false, List.cons.injEq, true_and]
      exact ih hr

lemma subDigitE_shape :
    ∀ (a : List Char) {b : List Char} {d : Char}, d.isDigit = true → 'E' ∉ a → 'E' ∉ b →
      subDigitE (a ++ d :: 'E' :: b) = a ++ 'E' :: b := by
  intro a
  induction a with
  | nil =>
    intro b d hd _ hb
    simp only [List.nil_append, subDigitE, hd, decide_True, Bool.and_true, Bool.true_and,
      if_true, List.cons.injEq, true_and]
    simpa using subDigitE_no_E hb
  | cons x a' ih =>
    intro b d hd ha hb
    have ha' : 'E' ∉ a' := fun hm => ha (List.mem_cons_of_mem _ hm)
    cases a' with
    | nil =>
      have hdE : d ≠ 'E' := isDigit_ne_E hd
      simp only [List.nil_append, List.cons_append, subDigitE, hdE, decide_False,
        Bool.and_false, Bool.false_eq_true, if_false, List.cons.injEq, true_and]
      simp only [subDigitE, hd, decide_True, Bool.and_true, Bool.true_and, if_true,
        List.cons.injEq, true_and]
      simpa using subDigitE_no_E hb
    | cons y a'' =>
      have hy : y ≠ 'E' := by
        intro heq
        exact ha (by simp [heq])
      have hstep : subDigitE (x :: y :: (a'' ++ d :: 'E' :: b)) =
          x :: subDigitE (y :: (a'' ++ d :: 'E' :: b)) := by
        simp [subDigitE, hy]
      calc subDigitE ((x :: y :: a'') ++ d :: 'E' :: b)
          = x :: subDigitE ((y :: a'') ++ d :: 'E' :: b) := by
            simpa using hstep
        _ = x :: ((y :: a'') ++ 'E' :: b) := by rw [ih hd ha' hb]
        _ = (x :: y :: a'') ++ 'E' :: b := rfl

lemma stripPrecisionAux_shape :
    ∀ (k fuel : ℕ) (a ds b : List Char) (width : ℕ),
      'E' ∉ a → (∀ c ∈ ds, c.isDigit = true) → 'E' ∉ b →
      (a ++ ds ++ 'E' :: b).length = width + k → k ≤ ds.length → k ≤ fuel →
      stripPrecisionAux fuel width (a ++ ds ++ 'E' :: b) =
        a ++ ds.take (ds.length - k) ++ 'E' :: b := by
  intro k
  induction k with
  | zero =>
    intro fuel a ds b width _ _ _ hlen _ _
    have hle : (a ++ ds ++ 'E' :: b).length ≤ width := by omega
    cases fuel with
    | zero => simp [stripPrecisionAux]
    | succ f =>
      rw [show stripPrecisionAux (f + 1) width (a ++ ds ++ 'E' :: b) = a ++ ds ++ 'E' :: b by
        simp only [stripPrecisionAux, if_pos hle]]
      simp
  | succ k ih =>
    intro fuel a ds b width ha hds hb hlen hk hfuel
    obtain ⟨f, rfl⟩ : ∃ f, fuel = f + 1 := ⟨fuel - 1, by omega⟩
    rcases List.eq_nil_or_concat ds with rfl | ⟨ds', d, hds_eq⟩
    · simp at hk
    · rw [List.concat_eq_append] at hds_eq
      subst hds_eq
      have hgt : ¬ (a ++ (ds' ++ [d]) ++ 'E' :: b).length ≤ width := by omega
      have hd : d.isDigit = true := hds d (by simp)
      have hds' : ∀ c ∈ ds', c.isDigit = true := fun c hc => hds c (by simp [hc])
      have haE : 'E' ∉ a ++ ds' := by
        intro hm
        rcases List.mem_append.mp hm with h | h
        · exact ha h
        · exact absurd (hds' _ h) (by decide)
      have hsub : subDigitE (a ++ (ds' ++ [d]) ++ 'E' :: b) = a ++ ds' ++ 'E' :: b := by
        have hrw : a ++ (ds' ++ [d]) ++ 'E' :: b = (a ++ ds') ++ d :: 'E' :: b := by simp
        rw [hrw, subDigitE_shape (a ++ ds') hd haE hb, List.append_assoc]
      have hlt : (subDigitE (a ++ (ds' ++ [d]) ++ 'E' :: b)).length <
          (a ++ (ds' ++ [d]) ++ 'E' :: b).length := by
        rw [hsub]; simp
      rw [show stripPrecisionAux (f + 1) width (a ++ (ds' ++ [d]) ++ 'E' :: b) =
          stripPrecisionAux f width (subDigitE (a ++ (ds' ++ [d]) ++ 'E' :: b)) by
        simp only [stripPrecisionAux, if_neg hgt, if_pos hlt]]
      rw [hsub]
      have hlen' : (a ++ ds' ++ 'E' :: b).length = width + k := by
        simp only [List.length_append, List.length_cons, List.length_nil] at hlen ⊢
        omega
      have hk' : k ≤ ds'.length := by
        simp only [List.length_append, List.length_cons, List.length_nil] at hk
        omega
      rw [ih f a ds' b width ha hds' hb hlen' hk' (by omega)]
      have htake : (ds' ++ [d]).take ((ds' ++ [d]).length - (k + 1)) =
          ds'.take (ds'.length - k) := by
        have h1 : (ds' ++ [d]).length - (k + 1) = ds'.length - k := by simp
        have h2 : ds'.length - k - ds'.length = 0 := by omega
        rw [h1, List.take_append_eq_append_take, h2]
        simp
      rw [htake]

lemma stripPrecision_shape {a ds b : List Char} {width k : ℕ}
    (ha : 'E' ∉ a) (hds : ∀ c ∈ ds, c.isDigit = true) (hb : 'E' ∉ b)
    (hlen : (a ++ ds ++ 'E' :: b).length = width + k) (hk : k ≤ ds.length) :
    stripPrecision width (a ++ ds ++ 'E' :: b) = a ++ ds.take (ds.length - k) ++ 'E' :: b := by
  unfold stripPrecision
  exact stripPrecisionAux_shape k _ a ds b width ha hds hb hlen hk (by omega)

/-! ### Structure of the general (fixed-notation) format -/

lemma pyFormatGeneral_spec {q : ℚ} (hq : 0 < q) (p w : ℕ) (_hp : 1 ≤ p)
    (hlow : -4 ≤ Int.log 10 q) (hhigh : Int.log 10 q + 1 < (p : ℤ))
    (hsmall : Int.log 10 q ≤ 2) :
    ∃ pre suf, pyFormatGeneral q p w = ljust w (pre ++ '.' :: suf) ∧ pre.length ≤ 4 := by
  obtain ⟨h1, h2, h3, h4⟩ := sciDigits_spec hq (p - 1)
  have hcond : -4 ≤ (sciDigits q (p - 1)).2 ∧ (sciDigits q (p - 1)).2 < (p : ℤ) :=
    ⟨by omega, by omega⟩
  unfold pyFormatGeneral
  rw [if_neg hq.ne', if_pos hcond]
  by_cases hneg : (sciDigits q (p - 1)).2 < 0
  · rw [if_pos hneg]
    exact ⟨['0'],
      List.replicate ((sciDigits q (p - 1)).2 + 1).natAbs '0' ++
        stripZeros (natDigits (sciDigits q (p - 1)).1),
      rfl, by norm_num⟩
  · rw [if_neg hneg]
    refine ⟨(natDigits (sciDigits q (p - 1)).1).take ((sciDigits q (p - 1)).2.toNat + 1), _,
      rfl, ?_⟩
    have htoNat : (sciDigits q (p - 1)).2.toNat ≤ 3 := by omega
    calc ((natDigits (sciDigits q (p - 1)).1).take
          ((sciDigits q (p - 1)).2.toNat + 1)).length
        ≤ (sciDigits q (p - 1)).2.toNat + 1 := by
          rw [List.length_take]; exact min_le_left _ _
      _ ≤ 4 := by omega

lemma dot_mem_take {pre suf : List Char} {n : ℕ} (h : pre.length < n) :
    '.' ∈ (pre ++ '.' :: suf).take n := by
  rw [List.take_append_eq_append_take]
  refine List.mem_append.mpr (Or.inr ?_)
  obtain ⟨m, hm⟩ : ∃ m, n - pre.length = m + 1 := ⟨n - pre.length - 1, by omega⟩
  rw [hm, List.take_succ_cons]
  exact List.mem_cons_self _ _

/-! ### The master property of the formatter core -/

lemma format_float_core_spec (sgn : List Char) {g : ℚ} (rw : ℕ)
    (hsgnE : 'E' ∉ sgn) (hlen8 : sgn.length + rw = 8) (hsgn1 : sgn.length ≤ 1)
    (_hg : 0 ≤ g) (hupp : g < 10 ^ (999 : ℕ)) :
    (format_float_core sgn g rw 8).length ≤ 8 ∧ '.' ∈ format_float_core sgn g rw 8 := by
  have hrw7 : 7 ≤ rw := by omega
  have hrw8 : rw ≤ 8 := by omega
  have h10cast : ((10 : ℕ) : ℚ) = (10 : ℚ) := by norm_num
  have hcast999 : (10 : ℚ) ^ (999 : ℕ) = (10 : ℚ) ^ ((999 : ℤ)) := by
    rw [← zpow_natCast]; norm_num
  unfold format_float_core
  by_cases hbig : (10 : ℚ) ^ ((rw : ℤ) - 5) ≤ g
  · rw [if_pos hbig]
    have hgpos : 0 < g := lt_of_lt_of_le (zpow_pos (by norm_num) _) hbig
    have hlog_low : (rw : ℤ) - 5 ≤ Int.log 10 g := by
      rw [← Int.zpow_le_iff_le_log (by norm_num) hgpos, h10cast]
      exact hbig
    have hlog_high : Int.log 10 g < 999 := by
      rw [← Int.lt_zpow_iff_log_lt (by norm_num) hgpos, h10cast]
      exact hcast999 ▸ hupp
    obtain ⟨d0, ds, e, hfe, hds_len, hds_dig, hd0, he1, he2⟩ :=
      pyFormatE_eq hgpos (by norm_num : (0 : ℕ) < 6) rw
    have he_nonneg : (0 : ℤ) ≤ e := by omega
    have he_le : e ≤ 999 := by omega
    have hnatAbs : e.natAbs < 1000 := by omega
    have hel2 := expDigits_length_ge e
    have hel3 := expDigits_length_le hnatAbs
    have hinner_len :
        (d0 :: '.' :: (ds ++ 'E' :: (if e < 0 then '-' else '+') :: expDigits e)).length
          = 10 + (expDigits e).length := by
      simp [hds_len]
      omega
    have hfe' : pyFormatE g 6 rw =
        d0 :: '.' :: (ds ++ 'E' :: (if e < 0 then '-' else '+') :: expDigits e) := by
      rw [hfe, ljust_of_le (by rw [hinner_len]; omega)]
    rw [hfe']
    have hdot : '.' ∈ sgn ++
        d0 :: '.' :: (ds ++ 'E' :: (if e < 0 then '-' else '+') :: expDigits e) := by
      simp
    rw [if_pos hdot]
    have hshape : sgn ++
        d0 :: '.' :: (ds ++ 'E' :: (if e < 0 then '-' else '+') :: expDigits e)
        = (sgn ++ [d0, '.']) ++ ds ++ 'E' :: ((if e < 0 then '-' else '+') :: expDigits e) := by
      simp
    have haE : 'E' ∉ sgn ++ [d0, '.'] := by
      intro hm
      rcases List.mem_append.mp hm with h | h
      · exact hsgnE h
      · rcases List.mem_cons.mp h with h' | h'
        · exact isDigit_ne_E hd0 h'.symm
        · simp only [List.mem_singleton] at h'
          exact absurd h' (by decide)
    have hbE : 'E' ∉ (if e < 0 then '-' else '+') :: expDigits e := E_not_mem_expTail e
    have hslen : ((sgn ++ [d0, '.']) ++ ds ++
        'E' :: ((if e < 0 then '-' else '+') :: expDigits e)).length
        = 8 + (sgn.length + 2 + (expDigits e).length) := by
      simp only [List.length_append, List.length_cons, List.length_nil, hds_len]
      omega
    have hk_le : sgn.length + 2 + (expDigits e).length ≤ ds.length := by
      rw [hds_len]; omega
    rw [hshape, stripPrecision_shape haE hds_dig hbE hslen hk_le]
    constructor
    · simp only [List.length_append, List.length_take, List.length_cons, List.length_nil,
        hds_len]
      omega
    · simp
  · rw [if_neg hbig]
    by_cases hzero : g < (10 : ℚ) ^ (-99 : ℤ)
    · rw [if_pos hzero]
      constructor
      · simp only [List.length_append, List.length_cons, List.length_nil]
        omega
      · simp
    · rw [if_neg hzero]
      by_cases hsmallb : g < (10 : ℚ) ^ ((4 : ℤ) - (rw : ℤ))
      · rw [if_pos hsmallb]
        have hgpos : 0 < g := lt_of_lt_of_le (zpow_pos (by norm_num) _) (not_lt.mp hzero)
        have hlog_low : (-99 : ℤ) ≤ Int.log 10 g := by
          rw [← Int.zpow_le_iff_le_log (by norm_num) hgpos, h10cast]
          exact not_lt.mp hzero
        have hlog_high : Int.log 10 g < (4 : ℤ) - (rw : ℤ) := by
          rw [← Int.lt_zpow_iff_log_lt (by norm_num) hgpos, h10cast]
          exact hsmallb
        obtain ⟨d0, ds, e, hfe, hds_len, hds_dig, hd0, he1, he2⟩ :=
          pyFormatE_eq hgpos (by omega : (0 : ℕ) < rw) 0
        have he_neg : e < 0 := by omega
        have hnatAbs : e.natAbs < 100 := by omega
        have hel2 : (expDigits e).length = 2 := expDigits_length_eq_two hnatAbs
        have hfe' : pyFormatE g rw 0 =
            d0 :: '.' :: (ds ++ 'E' :: (if e < 0 then '-' else '+') :: expDigits e) := by
          rw [hfe, ljust_of_le (by omega)]
        rw [hfe']
        have hshape : sgn ++
            d0 :: '.' :: (ds ++ 'E' :: (if e < 0 then '-' else '+') :: expDigits e)
            = (sgn ++ [d0, '.']) ++ ds ++
              'E' :: ((if e < 0 then '-' else '+') :: expDigits e) := by
          simp
        have haE : 'E' ∉ sgn ++ [d0, '.'] := by
          intro hm
          rcases List.mem_append.mp hm with h | h
          · exact hsgnE h
          · rcases List.mem_cons.mp h with h' | h'
            · exact isDigit_ne_E hd0 h'.symm
            · simp only [List.mem_singleton] at h'
              exact absurd h' (by decide)
        have hbE : 'E' ∉ (if e < 0 then '-' else '+') :: expDigits e := E_not_mem_expTail e
        have hslen : ((sgn ++ [d0, '.']) ++ ds ++
            'E' :: ((if e < 0 then '-' else '+') :: expDigits e)).length = 8 + 6 := by
          simp only [List.length_append, List.length_cons, List.length_nil, hds_len, hel2]
          omega
        have hk_le : (6 : ℕ) ≤ ds.length := by rw [hds_len]; omega
        rw [hshape, stripPrecision_shape haE hds_dig hbE hslen hk_le]
        constructor
        · simp only [List.length_append, List.length_take, List.length_cons, List.length_nil,
            hds_len, hel2]
          omega
        · simp
      · rw [if_neg hsmallb]
        have hgpos : 0 < g := lt_of_lt_of_le (zpow_pos (by norm_num) _) (not_lt.mp hsmallb)
        have hlog_low : (4 : ℤ) - (rw : ℤ) ≤ Int.log 10 g := by
          rw [← Int.zpow_le_iff_le_log (by norm_num) hgpos, h10cast]
          exact not_lt.mp hsmallb
        have hlog_high : Int.log 10 g < (rw : ℤ) - 5 := by
          rw [← Int.lt_zpow_iff_log_lt (by norm_num) hgpos, h10cast]
          exact not_le.mp hbig
        obtain ⟨pre, suf, hgen, hpre⟩ :=
          pyFormatGeneral_spec hgpos (rw - 1) (rw - 1) (by omega)
            (by omega)
            (by
              have : ((rw - 1 : ℕ) : ℤ) = (rw : ℤ) - 1 := by
                have : (1 : ℕ) ≤ rw := by omega
                push_cast [Nat.cast_sub this]
                ring
              omega)
            (by omega)
        have ht : sgn ++ pyFormatGeneral g (rw - 1) (rw - 1) =
            (sgn ++ pre) ++ '.' ::
              (suf ++ spaces ((rw - 1) - (pre ++ '.' :: suf).length)) := by
          rw [hgen]
          simp [ljust]
        rw [ht]
        have hdot : '.' ∈ (sgn ++ pre) ++ '.' ::
            (suf ++ spaces ((rw - 1) - (pre ++ '.' :: suf).length)) := by
          simp
        rw [if_pos hdot]
        constructor
        · rw [List.length_take]
          omega
        · exact dot_mem_take (by simp only [List.length_append]; omega)

lemma format_float_nastran_spec {q : ℚ} (h : |q| < 10 ^ (999 : ℕ)) :
    (format_float_nastran q 8).length = 8 ∧ '.' ∈ format_float_nastran q 8 := by
  rw [abs_lt] at h
  unfold format_float_nastran
  by_cases hneg : q < 0
  · rw [if_pos hneg]
    have hcore := format_float_core_spec ['-'] 7 (by decide) (by decide) (by decide)
      (by linarith : (0 : ℚ) ≤ -q) (by linarith : -q < 10 ^ (999 : ℕ))
    exact ⟨ljust_length_of_le hcore.1, mem_ljust_of_mem _ hcore.2⟩
  · rw [if_neg hneg]
    have hcore := format_float_core_spec [] 8 (by decide) (by decide) (by decide)
      (by linarith [not_lt.mp hneg] : (0 : ℚ) ≤ q) (by linarith [h.2] : q < 10 ^ (999 : ℕ))
    exact ⟨ljust_length_of_le hcore.1, mem_ljust_of_mem _ hcore.2⟩

/-!
Claim theorems.

The embedding models Python floats by exact rationals.  The magnitude
hypothesis `|q| < 10 ^ 999` appearing below encodes "any value a binary64
float can hold" (binary64 magnitudes are below `1.8e308`); it is an artefact
of quantifying over all of `ℚ` rather than over doubles.
-/

/-- C2: for every real value `v` (of double-representable magnitude),
`format_float_nastran v 8` returns a string of length exactly 8 that
contains a decimal point; and a nonnegative magnitude below `1e-99` renders
as the literal `0.0` padded to the width. -/
theorem C2_format_real_width_and_dot (q : ℚ) (h : |q| < 10 ^ (999 : ℕ)) :
    ((format_float_nastran q 8).length = 8 ∧ '.' ∈ format_float_nastran q 8) ∧
      (0 ≤ q → q < (10 : ℚ) ^ (-99 : ℤ) → format_float_nastran q 8 = "0.0     ".toList) := by
  refine ⟨format_float_nastran_spec h, fun h0 htiny => ?_⟩
  unfold format_float_nastran
  rw [if_neg (not_lt.mpr h0)]
  unfold format_float_core
  have h1 : ¬ (10 : ℚ) ^ (((8 : ℕ) : ℤ) - 5) ≤ q := by
    rw [show ((8 : ℕ) : ℤ) - 5 = 3 by norm_num]
    intro hcon
    have hlt : (10 : ℚ) ^ (-99 : ℤ) < 10 ^ (3 : ℤ) :=
      zpow_lt_zpow_right₀ (by norm_num : (1 : ℚ) < 10) (by norm_num)
    linarith
  rw [if_neg h1, if_pos htiny]
  decide

/-- Witness for C2 at the magnitudes the claim singles out. -/
theorem C2_format_real_width_and_dot_witness :
    (|(0 : ℚ)| < 10 ^ (999 : ℕ) ∧
      (((format_float_nastran 0 8).length = 8 ∧ '.' ∈ format_float_nastran 0 8) ∧
        (0 ≤ (0 : ℚ) → (0 : ℚ) < (10 : ℚ) ^ (-99 : ℤ) →
          format_float_nastran 0 8 = "0.0     ".toList))) ∧
    (|(10 : ℚ) ^ (7 : ℕ)| < 10 ^ (999 : ℕ) ∧
      ((format_float_nastran (10 ^ (7 : ℕ)) 8).length = 8 ∧
        '.' ∈ format_float_nastran (10 ^ (7 : ℕ)) 8)) ∧
    (|(1 : ℚ) / 10 ^ (7 : ℕ)| < 10 ^ (999 : ℕ) ∧
      ((format_float_nastran ((1 : ℚ) / 10 ^ (7 : ℕ)) 8).length = 8 ∧
        '.' ∈ format_float_nastran ((1 : ℚ) / 10 ^ (7 : ℕ)) 8)) ∧
    (|(1 : ℚ) / 10 ^ (100 : ℕ)| < 10 ^ (999 : ℕ) ∧
      ((format_float_nastran ((1 : ℚ) / 10 ^ (100 : ℕ)) 8).length = 8 ∧
        '.' ∈ format_float_nastran ((1 : ℚ) / 10 ^ (100 : ℕ)) 8)) := by
  have h0 : |(0 : ℚ)| < 10 ^ (999 : ℕ) := by norm_num
  have h7 : |(10 : ℚ) ^ (7 : ℕ)| < 10 ^ (999 : ℕ) := by
    rw [abs_of_nonneg (by positivity)]
    norm_num
  have hm7 : |(1 : ℚ) / 10 ^ (7 : ℕ)| < 10 ^ (999 : ℕ) := by
    rw [abs_of_nonneg (by positivity)]
    calc (1 : ℚ) / 10 ^ (7 : ℕ) ≤ 1 := by norm_num
      _ < 10 ^ (999 : ℕ) := by norm_num
  have hm100 : |(1 : ℚ) / 10 ^ (100 : ℕ)| < 10 ^ (999 : ℕ) := by
    rw [abs_of_nonneg (by positivity)]
    calc (1 : ℚ) / 10 ^ (100 : ℕ) ≤ 1 := by norm_num
      _ < 10 ^ (999 : ℕ) := by norm_num
  exact ⟨⟨h0, C2_format_real_width_and_dot 0 h0⟩,
    ⟨h7, (C2_format_real_width_and_dot _ h7).1⟩,
    ⟨hm7, (C2_format_real_width_and_dot _ hm7).1⟩,
    ⟨hm100, (C2_format_real_width_and_dot _ hm100).1⟩⟩

/-- A field value whose `format_bde` rendering occupies exactly 8
characters: Reals of double-representable magnitude always do; Integers and
Text only when their natural rendering does not exceed 8 characters
(Python's `"{:<8}"` pads but never truncates). -/
def rendersWithin8 (v : FieldValue) : Prop :=
  match v with
  | .Integer i => (intRepr i).length ≤ 8
  | .Real q => |q| < 10 ^ (999 : ℕ)
  | .Text t => t.length ≤ 8

instance : DecidablePred rendersWithin8 := fun v => by
  unfold rendersWithin8
  cases v <;> infer_instance

/-- C6 counterexample: an Integer whose digits exceed 8 characters is NOT
truncated by `format_bde` (Python's format width is a minimum), so the
claimed exact length `8 + 8·(number of fields)` fails. -/
theorem C6_counterexample :
    (format_bde "BDE".toList [.Integer 123456789]).length ≠ 8 + 8 * 1 := by decide

/-- C6 (amended): Integer and Text values are rendered left-justified and
space-padded to a minimum of 8 characters but are NOT truncated; when the
name fits in 8 characters and every field rendering fits in 8 characters
(all Integer digits and Text within 8; Reals always render to exactly 8),
the text produced by `format_bde` has length exactly `8 + 8·(number of
fields)`. -/
theorem C6_format_bde_length (bde_name : List Char) (fields : List FieldValue)
    (hname : bde_name.length ≤ 8) (hfields : ∀ v ∈ fields, rendersWithin8 v) :
    (format_bde bde_name fields).length = 8 + 8 * fields.length := by
  unfold format_bde
  rw [List.length_append, ljust_length_of_le hname]
  have hflat : ∀ fs : List FieldValue, (∀ v ∈ fs, rendersWithin8 v) →
      ((fs.map fun v =>
        match v with
        | .Real q => format_float_nastran q 8
        | .Integer i => ljust 8 (intRepr i)
        | .Text t => ljust 8 t).flatten).length = 8 * fs.length := by
    intro fs
    induction fs with
    | nil => intro _; simp
    | cons v r ih =>
      intro hall
      have hv := hall v (List.mem_cons_self v r)
      have hr := ih fun w hw => hall w (List.mem_cons_of_mem v hw)
      simp only [List.map_cons, List.flatten_cons, List.length_append, hr, List.length_cons]
      have h8 : (match v with
          | .Real q => format_float_nastran q 8
          | .Integer i => ljust 8 (intRepr i)
          | .Text t => ljust 8 t).length = 8 := by
        cases v with
        | Integer i => exact ljust_length_of_le hv
        | Real q => exact (format_float_nastran_spec hv).1
        | Text t => exact ljust_length_of_le hv
      rw [h8]
      ring
  rw [hflat fields hfields]

/-- Witness for C6 (amended) at a concrete record. -/
theorem C6_format_bde_length_witness :
    (format_bde "GRID".toList [.Integer 12, .Text "AB".toList]).length = 8 + 8 * 2 :=
  C6_format_bde_length _ _ (by decide) (by decide)

lemma mapMO_length {a b : Type} {f : a → Option b} :
    ∀ {l : List a} {ys : List b}, mapMO f l = some ys → ys.length = l.length := by
  intro l
  induction l with
  | nil =>
    intro ys h
    simp only [mapMO, Option.some.injEq] at h
    rw [← h]
    rfl
  | cons x r ih =>
    intro ys h
    simp only [mapMO, Option.bind_eq_bind, Option.bind_eq_some, Option.some.injEq,
      Option.pure_def] at h
    obtain ⟨y, _, rest, hrest, hys⟩ := h
    rw [← hys]
    simp [ih hrest]

lemma padTo72_length_ge (line : List Char) : 72 ≤ (padTo72 line).length := by
  unfold padTo72
  split
  · simp only [List.length_append, spaces_length]
    omega
  · omega

/-- C10 counterexample: the function does not return any field list on a
line holding a numeric-looking but malformed field — `int("1B")` raises a
`ValueError` that escapes the parser (our model: `none`) — although the
first 8 characters contain no `*`. -/
theorem C10_counterexample :
    '*' ∉ "TEST    1B".toList.take 8 ∧
      parse_fixed_field_format_line "TEST    1B".toList = none := by decide

/-- C10 (amended): whenever `parse_fixed_field_format_line` returns (i.e.
no field raises), it returns exactly 8 field values when the first 8
characters of the line contain no `*` and exactly 4 when they do; the padded
line is sliced from column 9 through column 72, so the count is independent
of the original length or content beyond column 72. -/
theorem C10_fixed_field_count (line n : List Char) (fs : List FieldValue) (c : Bool)
    (h : parse_fixed_field_format_line line = some (n, fs, c)) :
    fs.length = if '*' ∈ line.take 8 then 4 else 8 := by
  unfold parse_fixed_field_format_line at h
  rw [Option.map_eq_some'] at h
  obtain ⟨fields, hfields, heq⟩ := h
  injection heq with hn hrest
  injection hrest with hf hc
  subst hf
  rw [mapMO_length hfields, List.length_range']
  have h72 : min (padTo72 (stripComment line)).length 72 = 72 :=
    min_eq_right (padTo72_length_ge _)
  rw [h72]
  unfold fieldWidth
  by_cases hstar : '*' ∈ line.take 8
  · rw [if_pos hstar, if_pos hstar]
  · rw [if_neg hstar, if_neg hstar]

/-- Witness for C10 (amended) at a concrete fixed-field line. -/
theorem C10_fixed_field_count_witness :
    ([FieldValue.Integer 1, .Text [], .Text [], .Text [], .Text [], .Text [], .Text [],
        .Text []].length : ℕ) = if '*' ∈ "SPC     1".toList.take 8 then 4 else 8 :=
  C10_fixed_field_count "SPC     1".toList "SPC".toList _ false (by decide)

/-- C5 counterexample: on a fixed-field line whose trimmed name is `A+` the
parser flags a continuation (the source tests `"+" in bde_name`, i.e.
membership anywhere), although the name is nonempty and does not begin with
`+` — refuting the claimed iff. -/
theorem C5_counterexample :
    ((parse_fixed_field_format_line "A+      1".toList).map fun r => (r.1, r.2.2)) =
        some ("A+".toList, true) ∧
      ¬("A+".toList = [] ∨ "A+".toList.head? = some '+') := by decide

/-- C5 (amended): for every physical line, in both the fixed-field and the
free-field parser, the continuation flag is true iff the trimmed record
name is empty or CONTAINS a `+` anywhere (not merely as first character). -/
theorem C5_continuation_flag (line n : List Char) (fs : List FieldValue) (c : Bool) :
    (parse_fixed_field_format_line line = some (n, fs, c) →
      (c = true ↔ n = [] ∨ '+' ∈ n)) ∧
    (parse_free_field_format_line line = some (n, fs, c) →
      (c = true ↔ n = [] ∨ '+' ∈ n)) := by
  constructor
  · intro h
    unfold parse_fixed_field_format_line at h
    rw [Option.map_eq_some'] at h
    obtain ⟨fields, -, heq⟩ := h
    injection heq with hn hrest
    injection hrest with hf hc
    subst hn
    rw [← hc]
    simp [List.isEmpty_iff]
  · intro h
    unfold parse_free_field_format_line at h
    cases hsplit : splitOnChar ',' line with
    | nil => rw [hsplit] at h; exact absurd h (by simp)
    | cons name0 rest =>
      rw [hsplit] at h
      rw [Option.map_eq_some'] at h
      obtain ⟨fields, -, heq⟩ := h
      injection heq with hn hrest
      injection hrest with hf hc
      subst hn
      rw [← hc]
      simp [List.isEmpty_iff]

/-- Witness for C5 (amended): a plain record line is not a continuation. -/
theorem C5_continuation_flag_witness :
    (false = true ↔ "GRID".toList = [] ∨ '+' ∈ "GRID".toList) :=
  (C5_continuation_flag "GRID    1".toList "GRID".toList
      [.Integer 1, .Text [], .Text [], .Text [], .Text [], .Text [], .Text [], .Text []]
      false).1 (by decide)

set_option maxRecDepth 100000 in
unseal Rat.add Rat.mul Rat.inv Rat.sub in
/-- C8: parsing the single fixed-field line
`SPC     101106  880000430       0.0     ` alone yields a table with
exactly one entry, and that entry's key is `SPC  10110688000043` (3-char
name, then the 8-wide right-justified renderings of fields 1 and 2, per the
SPC entry of the multi-field key table). -/
theorem C8_spc_key_example :
    (parse_bulk_data ["SPC     101106  880000430       0.0     ".toList]).map
      (fun r => r.1.map Prod.fst) = some ["SPC  10110688000043".toList] := by decide

/-- C4 counterexample: a deck whose first line is a continuation line (no
record open) makes `parse_bulk_data` raise a `KeyError` (modelled `none`):
the whole parse aborts and NO table is produced for the remaining records,
contrary to the claimed record-local recovery. -/
theorem C4_counterexample :
    parse_bulk_data ["+CONT   1".toList, "GRID    2       3".toList] = none := by decide

/-- C4 (amended): when the record assembler encounters a continuation line
while no record is open (here: as the first non-blank line of the deck), the
lookup `data[key]` with the initial empty cursor key raises an uncaught
`KeyError`; the entire parse aborts and no table is produced — the rest of
the input is NOT processed. -/
theorem C4_unbalanced_continuation_aborts (l : List Char) (rest : List (List Char))
    (n : List Char) (fs : List FieldValue)
    (hne : (preprocess_line l).isEmpty = false)
    (hp : parse_any_line (preprocess_line l) = some (n, fs, true)) :
    parse_bulk_data (l :: rest) = none := by
  unfold parse_bulk_data
  rw [List.foldlM_cons]
  have hstep : process_bulk_line initState l = none := by
    unfold process_bulk_line
    rw [if_neg (by rw [hne]; simp : ¬ (preprocess_line l).isEmpty = true), hp]
    simp [initState, dictLookup]
  rw [hstep]
  rfl

/-! ### String lemmas for the key-stability analysis (C3) -/

lemma rstrip_decomp (l : List Char) :
    ∃ t, l = rstrip l ++ t ∧ ∀ c ∈ t, isPySpace c = true := by
  refine ⟨(l.reverse.takeWhile isPySpace).reverse, ?_, ?_⟩
  · unfold rstrip
    rw [← List.reverse_append, List.takeWhile_append_dropWhile, List.reverse_reverse]
  · intro c hc
    rw [List.mem_reverse] at hc
    exact List.mem_takeWhile_imp hc

lemma rstrip_sublist (l : List Char) : (rstrip l).Sublist l := by
  unfold rstrip
  have h : List.Sublist (List.dropWhile isPySpace l.reverse) l.reverse := by
    apply List.dropWhile_sublist
  simpa using h.reverse

lemma mem_rstrip {c : Char} {l : List Char} (h : c ∈ rstrip l) : c ∈ l :=
  (rstrip_sublist l).subset h

lemma pyStrip_sublist (l : List Char) : (pyStrip l).Sublist l := by
  unfold pyStrip lstrip
  exact (rstrip_sublist _).trans (List.dropWhile_sublist _)

lemma mem_pyStrip {c : Char} {l : List Char} (h : c ∈ pyStrip l) : c ∈ l :=
  (pyStrip_sublist l).subset h

lemma rstrip_spaces_decomp {l : List Char}
    (hsp : ∀ c ∈ l, isPySpace c = true → c = ' ') :
    l = rstrip l ++ spaces (l.length - (rstrip l).length) := by
  obtain ⟨t, hl, ht⟩ := rstrip_decomp l
  have hts : t = spaces t.length := by
    rw [spaces, List.eq_replicate_iff]
    exact ⟨rfl, fun c hc => hsp c (hl ▸ List.mem_append.mpr (Or.inr hc)) (ht c hc)⟩
  have hlen : l.length = (rstrip l).length + t.length := by
    conv_lhs => rw [hl]
    rw [List.length_append]
  rw [show l.length - (rstrip l).length = t.length by omega, ← hts]
  exact hl

lemma rstrip_append_spaces (y : List Char) (n : ℕ) : rstrip (y ++ spaces n) = rstrip y := by
  unfold rstrip
  congr 1
  rw [List.reverse_append]
  induction n with
  | zero => simp [spaces]
  | succ m ih =>
    have : spaces (m + 1) = spaces m ++ [' '] := by
      simp [spaces, List.replicate_succ']
    rw [this]
    simp only [List.reverse_append, List.reverse_cons, List.reverse_nil, List.nil_append,
      List.cons_append, List.dropWhile_cons]
    rw [if_pos (by decide : isPySpace ' ' = true)]
    simpa using ih

lemma lstrip_append_of_ne {x : List Char} (z : List Char)
    (hx : ∃ c ∈ x, isPySpace c = false) : lstrip (x ++ z) = lstrip x ++ z := by
  induction x with
  | nil => simp at hx
  | cons c r ih =>
    by_cases hc : isPySpace c = true
    · have hr : ∃ d ∈ r, isPySpace d = false := by
        obtain ⟨d, hd, hdf⟩ := hx
        rcases List.mem_cons.mp hd with rfl | hd'
        · rw [hc] at hdf; exact absurd hdf (by decide)
        · exact ⟨d, hd', hdf⟩
      simp only [List.cons_append, lstrip, List.dropWhile_cons, hc, if_true]
      exact ih hr
    · simp only [List.cons_append, lstrip, List.dropWhile_cons, hc, if_false]
      simp

lemma pyStrip_append_spaces (x : List Char) (n : ℕ) :
    pyStrip (x ++ spaces n) = pyStrip x := by
  by_cases hall : ∀ c ∈ x, isPySpace c = true
  · have h1 : lstrip (x ++ spaces n) = [] := by
      unfold lstrip
      rw [List.dropWhile_eq_nil_iff]
      intro c hc
      rcases List.mem_append.mp hc with h | h
      · exact hall c h
      · rw [spaces] at h
        rw [List.eq_of_mem_replicate h]
        decide
    have h2 : lstrip x = [] := by
      unfold lstrip
      rw [List.dropWhile_eq_nil_iff]
      exact hall
    unfold pyStrip
    rw [h1, h2]
  · push_neg at hall
    obtain ⟨c, hc, hcf⟩ := hall
    have hx : ∃ c ∈ x, isPySpace c = false := ⟨c, hc, by simpa using hcf⟩
    unfold pyStrip
    rw [lstrip_append_of_ne _ hx, rstrip_append_spaces]

lemma padTo72_eq {l : List Char} (h : l.length ≤ 72) :
    padTo72 l = l ++ spaces (72 - l.length) := by
  unfold padTo72
  split
  · rfl
  · have : l.length = 72 := by omega
    simp [this, spaces]

lemma spaces_append (m n : ℕ) : spaces m ++ spaces n = spaces (m + n) := by
  simp [spaces, ← List.replicate_add]

lemma padTo72_rstrip {l : List Char} (hsp : ∀ c ∈ l, isPySpace c = true → c = ' ')
    (hlen : l.length ≤ 72) :
    padTo72 (rstrip l) = l ++ spaces (72 - l.length) := by
  have hdec := rstrip_spaces_decomp hsp
  have hrlen : (rstrip l).length ≤ l.length := (rstrip_sublist l).length_le
  calc padTo72 (rstrip l) = rstrip l ++ spaces (72 - (rstrip l).length) :=
        padTo72_eq (le_trans hrlen hlen)
    _ = rstrip l ++ (spaces (l.length - (rstrip l).length) ++ spaces (72 - l.length)) := by
        have harith : l.length - (rstrip l).length + (72 - l.length) = 72 - (rstrip l).length := by
          omega
        rw [spaces_append, harith]
    _ = (rstrip l ++ spaces (l.length - (rstrip l).length)) ++ spaces (72 - l.length) := by
        rw [List.append_assoc]
    _ = l ++ spaces (72 - l.length) := by rw [← hdec]

lemma take8_pyStrip {l : List Char} (hsp : ∀ c ∈ l, isPySpace c = true → c = ' ') :
    pyStrip ((rstrip l).take 8) = pyStrip (l.take 8) := by
  have hdec := rstrip_spaces_decomp hsp
  conv_rhs => rw [hdec]
  rw [List.take_append_eq_append_take]
  rw [show List.take (8 - (rstrip l).length) (spaces (l.length - (rstrip l).length)) =
      spaces (min (8 - (rstrip l).length) (l.length - (rstrip l).length)) by
    simp [spaces, List.take_replicate]]
  rw [pyStrip_append_spaces]

lemma flatten_length_of_blocks {bs : List (List Char)} (h : ∀ b ∈ bs, b.length = 8) :
    bs.flatten.length = 8 * bs.length := by
  induction bs with
  | nil => simp
  | cons b r ih =>
    simp only [List.flatten_cons, List.length_append, List.length_cons,
      h b (List.mem_cons_self b r), ih fun x hx => h x (List.mem_cons_of_mem b hx)]
    ring

lemma mapMO_append {a b : Type} {f : a → Option b} :
    ∀ {l1 l2 : List a} {vs : List b}, mapMO f (l1 ++ l2) = some vs →
      ∃ v1 v2, mapMO f l1 = some v1 ∧ mapMO f l2 = some v2 ∧ vs = v1 ++ v2 := by
  intro l1
  induction l1 with
  | nil =>
    intro l2 vs h
    exact ⟨[], vs, rfl, h, rfl⟩
  | cons x r ih =>
    intro l2 vs h
    simp only [List.cons_append, mapMO, Option.bind_eq_bind, Option.bind_eq_some,
      Option.some.injEq, Option.pure_def] at h
    obtain ⟨y, hy, rest, hrest, hvs⟩ := h
    obtain ⟨v1, v2, h1, h2, rfl⟩ := ih hrest
    refine ⟨y :: v1, v2, ?_, h2, by rw [← hvs]; rfl⟩
    simp [mapMO, hy, h1]

lemma mapMO_congr {a b : Type} {f g : a → Option b} :
    ∀ {l : List a}, (∀ x ∈ l, f x = g x) → mapMO f l = mapMO g l := by
  intro l
  induction l with
  | nil => intro _; rfl
  | cons x r ih =>
    intro h
    simp only [mapMO, h x (List.mem_cons_self x r), ih fun y hy => h y (List.mem_cons_of_mem x hy)]

lemma parse_field_spaces8 : parse_field (spaces 8) = some (.Text []) := by decide

lemma mapMO_parse_slices :
    ∀ (cnt : ℕ) (bs : List (List Char)) (vs : List FieldValue) (pre Y : List Char),
      Y = pre ++ bs.flatten ++ spaces (8 * (cnt - bs.length)) →
      (∀ b ∈ bs, b.length = 8) → bs.length ≤ cnt →
      mapMO parse_field bs = some vs →
      mapMO (fun i => parse_field ((Y.drop i).take 8)) (List.range' pre.length cnt 8) =
        some (vs ++ List.replicate (cnt - bs.length) (.Text [])) := by
  intro cnt
  induction cnt with
  | zero =>
    intro bs vs pre Y _ _ hcnt hvs
    have hbs : bs = [] := List.length_eq_zero.mp (by omega)
    subst hbs
    simp only [mapMO, Option.some.injEq] at hvs
    simp [List.range', ← hvs, mapMO]
  | succ cnt ih =>
    intro bs vs pre Y hY hb8 hcnt hvs
    cases bs with
    | nil =>
      simp only [mapMO, Option.some.injEq] at hvs
      subst hvs
      have hYe : Y = pre ++ spaces (8 * (cnt + 1)) := by
        simpa using hY
      have hslice : (Y.drop pre.length).take 8 = spaces 8 := by
        rw [hYe, List.drop_left]
        simp only [spaces, List.take_replicate]
        congr 1
        omega
      have hrange : List.range' pre.length (cnt + 1) 8 =
          pre.length :: List.range' (pre.length + 8) cnt 8 := rfl
      rw [hrange]
      have hpre' : pre.length + 8 = (pre ++ spaces 8).length := by
        simp [spaces_length]
      have hY' : Y = (pre ++ spaces 8) ++ List.flatten [] ++ spaces (8 * (cnt - 0)) := by
        rw [hYe]
        simp only [List.flatten_nil, List.append_nil, List.append_assoc, spaces_append]
        congr 2
        omega
      have hrec := ih [] [] (pre ++ spaces 8) Y hY' (by simp) (by simp) rfl
      rw [hpre'] at hrange ⊢
      simp only [mapMO, hslice, parse_field_spaces8, Option.bind_eq_bind, Option.some_bind,
        hrec, Option.some_bind]
      simp [List.replicate_succ]
    | cons b bs' =>
      simp only [mapMO, Option.bind_eq_bind, Option.bind_eq_some, Option.some.injEq,
        Option.pure_def] at hvs
      obtain ⟨v, hv, vs', hvs', hcons⟩ := hvs
      have hb : b.length = 8 := hb8 b (List.mem_cons_self b bs')
      have hb8' : ∀ x ∈ bs', x.length = 8 := fun x hx => hb8 x (List.mem_cons_of_mem b hx)
      have hlen_eq : cnt + 1 - (b :: bs').length = cnt - bs'.length := by
        simp only [List.length_cons]
        omega
      have hYe : Y = pre ++ (b ++ (bs'.flatten ++ spaces (8 * (cnt - bs'.length)))) := by
        rw [hY, hlen_eq]
        simp only [List.flatten_cons, List.append_assoc]
      have hslice : (Y.drop pre.length).take 8 = b := by
        rw [hYe, List.drop_left, ← hb, List.take_left]
      have hrange : List.range' pre.length (cnt + 1) 8 =
          pre.length :: List.range' (pre.length + 8) cnt 8 := rfl
      rw [hrange]
      have hpre' : pre.length + 8 = (pre ++ b).length := by
        simp [hb]
      have hY' : Y = (pre ++ b) ++ bs'.flatten ++ spaces (8 * (cnt - bs'.length)) := by
        rw [hYe]
        simp [List.append_assoc]
      have hrec := ih bs' vs' (pre ++ b) Y hY' hb8' (by simpa using hcnt) hvs'
      rw [hlen_eq, ← hcons, hpre']
      simp only [mapMO, hslice, hv, Option.bind_eq_bind, Option.some_bind, hrec,
        Option.pure_def, Option.some.injEq]
      simp

/-- The parse of the trailing-whitespace-stripped line `name ++ blocks` in
fixed small-field format, for an 8-character raw name and 8-character field
blocks free of `$`, `*` and non-space whitespace: the fields are the parses
of the blocks followed by blank (empty-Text) fields up to the fixed count
of 8. -/
lemma parse_fixed_mkLine (name : List Char) (bs : List (List Char)) (vs : List FieldValue)
    (hname : name.length = 8) (hb8 : ∀ b ∈ bs, b.length = 8) (hcnt : bs.length ≤ 8)
    (hclean : ∀ c ∈ name ++ bs.flatten,
      c ≠ '$' ∧ c ≠ '*' ∧ (isPySpace c = true → c = ' '))
    (hvs : mapMO parse_field bs = some vs) :
    parse_fixed_field_format_line (rstrip (name ++ bs.flatten)) =
      some (pyStrip name, vs ++ List.replicate (8 - bs.length) (.Text []),
        (pyStrip name).isEmpty || (pyStrip name).contains '+') := by
  have hLlen : (name ++ bs.flatten).length = 8 + 8 * bs.length := by
    rw [List.length_append, hname, flatten_length_of_blocks hb8]
  have hsp : ∀ c ∈ name ++ bs.flatten, isPySpace c = true → c = ' ' :=
    fun c hc => (hclean c hc).2.2
  have hL72 : (name ++ bs.flatten).length ≤ 72 := by omega
  have hdollar : '$' ∉ rstrip (name ++ bs.flatten) := fun hm =>
    ((hclean _ (mem_rstrip hm)).1 rfl)
  have hstar8 : '*' ∉ (rstrip (name ++ bs.flatten)).take 8 := fun hm =>
    ((hclean _ (mem_rstrip (List.take_subset _ _ hm))).2.1 rfl)
  have hsc : stripComment (rstrip (name ++ bs.flatten)) = rstrip (name ++ bs.flatten) := by
    unfold stripComment
    exact if_neg hdollar
  have hfw : fieldWidth (rstrip (name ++ bs.flatten)) = 8 := by
    unfold fieldWidth
    exact if_neg hstar8
  have hpad : padTo72 (stripComment (rstrip (name ++ bs.flatten))) =
      name ++ bs.flatten ++ spaces (8 * (8 - bs.length)) := by
    rw [hsc, padTo72_rstrip hsp hL72]
    congr 1
    rw [hLlen]
    congr 1
    omega
  have hpadlen : (padTo72 (stripComment (rstrip (name ++ bs.flatten)))).length = 72 := by
    rw [hpad]
    simp only [List.length_append, spaces_length, hname, flatten_length_of_blocks hb8]
    omega
  have hslices := mapMO_parse_slices 8 bs vs name
    (padTo72 (stripComment (rstrip (name ++ bs.flatten))))
    (by rw [hpad, List.append_assoc]) hb8 hcnt hvs
  have hnm : stripStar ((rstrip (name ++ bs.flatten)).take 8) = pyStrip name := by
    unfold stripStar
    rw [if_neg hstar8, take8_pyStrip hsp]
    congr 1
    rw [← hname, List.take_left]
  rw [hname] at hslices
  unfold parse_fixed_field_format_line
  rw [hfw]
  have hcount' : (min (padTo72 (stripComment (rstrip (name ++ bs.flatten)))).length 72 - 8 +
      (8 - 1)) / 8 = 8 := by
    rw [hpadlen]
    decide
  rw [hcount', hnm, hslices]
  rfl

lemma rstrip_eq_nil_imp {l : List Char} (h : rstrip l = []) : ∀ c ∈ l, isPySpace c = true := by
  obtain ⟨t, hl, ht⟩ := rstrip_decomp l
  rw [h, List.nil_append] at hl
  exact hl ▸ ht

lemma pyStrip_eq_nil_of_all_space {l : List Char} (h : ∀ c ∈ l, isPySpace c = true) :
    pyStrip l = [] := by
  have h1 : lstrip l = [] := by
    unfold lstrip
    rw [List.dropWhile_eq_nil_iff]
    exact h
  unfold pyStrip
  rw [h1]
  rfl

lemma mem_flatten_of_mem_take {c : Char} {bs : List (List Char)} {k : ℕ}
    (h : c ∈ (bs.take k).flatten) : c ∈ bs.flatten := by
  rw [List.mem_flatten] at h ⊢
  obtain ⟨l, hl, hc⟩ := h
  exact ⟨l, List.take_subset k bs hl, hc⟩

lemma mem_flatten_of_mem_drop {c : Char} {bs : List (List Char)} {k : ℕ}
    (h : c ∈ (bs.drop k).flatten) : c ∈ bs.flatten := by
  rw [List.mem_flatten] at h ⊢
  obtain ⟨l, hl, hc⟩ := h
  exact ⟨l, List.drop_subset k bs hl, hc⟩

/-- The canonical key does not change when the field list is cut after the
designated key fields and refilled with arbitrary further fields. -/
lemma derive_key_prefix (nm : List Char) (vs ws : List FieldValue) (k : ℕ) (K : List Char)
    (hk : 1 ≤ k) (hlen : k ≤ vs.length)
    (hidx : ∀ i ∈ (lookupKeys nm).getD [], i < k)
    (hkey : derive_key nm vs = some K) :
    derive_key nm (vs.take k ++ ws) = some K := by
  obtain ⟨v0, vs0, rfl⟩ := List.exists_cons_of_ne_nil
    (List.ne_nil_of_length_pos (by omega) : vs ≠ [])
  obtain ⟨j, rfl⟩ : ∃ j, k = j + 1 := ⟨k - 1, by omega⟩
  have h2 : ((v0 :: vs0).take (j + 1) ++ ws).head? = some v0 := by
    rw [List.take_succ_cons]
    rfl
  unfold derive_key at hkey ⊢
  rw [h2]
  rw [show (v0 :: vs0).head? = some v0 from rfl] at hkey
  simp only [Option.bind_eq_bind, Option.some_bind] at hkey ⊢
  cases hlk : lookupKeys nm with
  | none =>
    rw [hlk] at hkey
    exact hkey
  | some idxs =>
    rw [hlk] at hkey
    have hcongr : mapMO (fun i => ((v0 :: vs0).take (j + 1) ++ ws).get? i) idxs =
        mapMO (fun i => (v0 :: vs0).get? i) idxs := by
      apply mapMO_congr
      intro i hi
      have hik : i < j + 1 := by
        have := hidx i (by rw [hlk]; exact hi)
        omega
      have htk : i < ((v0 :: vs0).take (j + 1)).length := by
        rw [List.length_take]
        omega
      rw [List.get?_append htk, List.get?_take hik]
    dsimp only at hkey ⊢
    rw [hcongr]
    exact hkey

/-- C3 (amended): parsing a logical record as a single fixed-field line and
parsing the equivalent splitting of it into a first line plus a
continuation line produce the SAME canonical key, provided the designated
key fields stay on the first line.  The two post-continuation-removal
comparison texts, however, need NOT be equal — see `C3_counterexample`: the
split form's stored text carries the renderings of the blank trailing
fields of each physical line — so only the key half of the claim holds. -/
theorem C3_key_stability (nameRaw : List Char) (blocks : List (List Char))
    (vs : List FieldValue) (K : List Char) (k : ℕ)
    (hname : nameRaw.length = 8) (hblen : blocks.length = 8)
    (hb8 : ∀ b ∈ blocks, b.length = 8)
    (hclean : ∀ c ∈ nameRaw ++ blocks.flatten,
      c ≠ '$' ∧ c ≠ '*' ∧ c ≠ ',' ∧ (isPySpace c = true → c = ' '))
    (hplus : '+' ∉ nameRaw) (hnm_ne : pyStrip nameRaw ≠ [])
    (hk1 : 1 ≤ k) (hk8 : k ≤ 8)
    (hidx : ∀ i ∈ (lookupKeys (pyStrip nameRaw)).getD [], i < k)
    (hvs : mapMO parse_field blocks = some vs)
    (hkey : derive_key (pyStrip nameRaw) vs = some K) :
    parse_bulk_data [nameRaw ++ blocks.flatten] =
      some ([(K, format_bde (pyStrip nameRaw) vs)], []) ∧
    parse_bulk_data [nameRaw ++ (blocks.take k).flatten,
        ('+' :: spaces 7) ++ (blocks.drop k).flatten] =
      some ([(K,
        format_bde (pyStrip nameRaw) (vs.take k ++ List.replicate (8 - k) (.Text [])) ++
          '\n' :: format_bde [] (vs.drop k ++ List.replicate k (.Text [])))], []) := by
  have hvslen : vs.length = 8 := by rw [mapMO_length hvs, hblen]
  have hsplit : mapMO parse_field (blocks.take k ++ blocks.drop k) = some vs := by
    rw [List.take_append_drop]; exact hvs
  obtain ⟨v1, v2, hv1, hv2, hvs12⟩ := mapMO_append hsplit
  have htklen : (blocks.take k).length = k := by rw [List.length_take, hblen]; omega
  have hdplen : (blocks.drop k).length = 8 - k := by rw [List.length_drop, hblen]
  have hv1len : v1.length = k := by rw [mapMO_length hv1, htklen]
  have hv1eq : v1 = vs.take k := by rw [hvs12, ← hv1len, List.take_left]
  have hv2eq : v2 = vs.drop k := by rw [hvs12, ← hv1len, List.drop_left]
  have hflag : ((pyStrip nameRaw).isEmpty || (pyStrip nameRaw).contains '+') = false := by
    have h1 : (pyStrip nameRaw).isEmpty = false := by
      cases hpn : pyStrip nameRaw with
      | nil => exact absurd hpn hnm_ne
      | cons a l => rfl
    have h2 : (pyStrip nameRaw).contains '+' = false := by
      cases hcon : (pyStrip nameRaw).contains '+' with
      | false => rfl
      | true =>
        exfalso
        exact hplus (mem_pyStrip (by simpa using hcon))
    rw [h1, h2]
    rfl
  constructor
  · -- the single-line deck
    have hnotdollar : '$' ∉ nameRaw ++ blocks.flatten := fun hm => (hclean _ hm).1 rfl
    have hpre : preprocess_line (nameRaw ++ blocks.flatten) =
        rstrip (nameRaw ++ blocks.flatten) := by
      unfold preprocess_line stripComment
      rw [if_neg hnotdollar]
    have hne : (rstrip (nameRaw ++ blocks.flatten)).isEmpty = false := by
      cases hre : rstrip (nameRaw ++ blocks.flatten) with
      | nil =>
        exfalso
        exact hnm_ne (pyStrip_eq_nil_of_all_space fun c hc =>
          rstrip_eq_nil_imp hre c (List.mem_append_left _ hc))
      | cons a l => rfl
    have hnc : ',' ∉ rstrip (nameRaw ++ blocks.flatten) := fun hm =>
      (hclean _ (mem_rstrip hm)).2.2.1 rfl
    have hpa : parse_any_line (rstrip (nameRaw ++ blocks.flatten)) =
        parse_fixed_field_format_line (rstrip (nameRaw ++ blocks.flatten)) := by
      unfold parse_any_line
      rw [if_neg hnc]
    have hparse := parse_fixed_mkLine nameRaw blocks vs hname hb8 (by omega)
      (fun c hc => ⟨(hclean c hc).1, (hclean c hc).2.1, (hclean c hc).2.2.2⟩) hvs
    rw [hblen] at hparse
    simp only [Nat.sub_self, List.replicate, List.append_nil] at hparse
    have hstep : process_bulk_line initState (nameRaw ++ blocks.flatten) =
        some ⟨[(K, format_bde (pyStrip nameRaw) vs)], K, []⟩ := by
      unfold process_bulk_line
      rw [hpre, if_neg (by rw [hne]; simp : ¬ (rstrip (nameRaw ++ blocks.flatten)).isEmpty = true),
        hpa, hparse]
      simp only [Option.bind_eq_bind, Option.some_bind]
      rw [hflag]
      simp [initState, dictLookup, dictInsert, hkey]
    unfold parse_bulk_data
    rw [List.foldlM_cons, hstep]
    simp only [Option.bind_eq_bind, Option.some_bind, List.foldlM_nil, Option.map_some']
    rfl
  · -- the split deck
    have hcleanL1 : ∀ c ∈ nameRaw ++ (blocks.take k).flatten,
        c ≠ '$' ∧ c ≠ '*' ∧ c ≠ ',' ∧ (isPySpace c = true → c = ' ') := by
      intro c hc
      refine hclean c ?_
      rcases List.mem_append.mp hc with h | h
      · exact List.mem_append_left _ h
      · exact List.mem_append_right _ (mem_flatten_of_mem_take h)
    have hcleanC : ∀ c ∈ ('+' :: spaces 7) ++ (blocks.drop k).flatten,
        c ≠ '$' ∧ c ≠ '*' ∧ c ≠ ',' ∧ (isPySpace c = true → c = ' ') := by
      intro c hc
      rcases List.mem_append.mp hc with h | h
      · rcases List.mem_cons.mp h with rfl | h'
        · exact ⟨by decide, by decide, by decide, by decide⟩
        · rw [spaces] at h'
          rw [List.eq_of_mem_replicate h']
          exact ⟨by decide, by decide, by decide, by decide⟩
      · have := hclean c (List.mem_append_right _ (mem_flatten_of_mem_drop h))
        exact ⟨this.1, this.2.1, this.2.2.1, this.2.2.2⟩
    -- first line of the split
    have hnotdollar1 : '$' ∉ nameRaw ++ (blocks.take k).flatten := fun hm =>
      (hcleanL1 _ hm).1 rfl
    have hpre1 : preprocess_line (nameRaw ++ (blocks.take k).flatten) =
        rstrip (nameRaw ++ (blocks.take k).flatten) := by
      unfold preprocess_line stripComment
      rw [if_neg hnotdollar1]
    have hne1 : (rstrip (nameRaw ++ (blocks.take k).flatten)).isEmpty = false := by
      cases hre : rstrip (nameRaw ++ (blocks.take k).flatten) with
      | nil =>
        exfalso
        exact hnm_ne (pyStrip_eq_nil_of_all_space fun c hc =>
          rstrip_eq_nil_imp hre c (List.mem_append_left _ hc))
      | cons a l => rfl
    have hnc1 : ',' ∉ rstrip (nameRaw ++ (blocks.take k).flatten) := fun hm =>
      (hcleanL1 _ (mem_rstrip hm)).2.2.1 rfl
    have hpa1 : parse_any_line (rstrip (nameRaw ++ (blocks.take k).flatten)) =
        parse_fixed_field_format_line (rstrip (nameRaw ++ (blocks.take k).flatten)) := by
      unfold parse_any_line
      rw [if_neg hnc1]
    have hparse1 := parse_fixed_mkLine nameRaw (blocks.take k) v1 hname
      (fun b hb => hb8 b (List.take_subset _ _ hb)) (by omega)
      (fun c hc => ⟨(hcleanL1 c hc).1, (hcleanL1 c hc).2.1, (hcleanL1 c hc).2.2.2⟩) hv1
    rw [htklen, hv1eq] at hparse1
    have hkey1 : derive_key (pyStrip nameRaw)
        (vs.take k ++ List.replicate (8 - k) (.Text [])) = some K :=
      derive_key_prefix (pyStrip nameRaw) vs _ k K hk1 (by omega) hidx hkey
    have hstep1 : process_bulk_line initState (nameRaw ++ (blocks.take k).flatten) =
        some ⟨[(K, format_bde (pyStrip nameRaw)
          (vs.take k ++ List.replicate (8 - k) (.Text [])))], K, []⟩ := by
      unfold process_bulk_line
      rw [hpre1, if_neg (by rw [hne1]; simp :
          ¬ (rstrip (nameRaw ++ (blocks.take k).flatten)).isEmpty = true),
        hpa1, hparse1]
      simp only [Option.bind_eq_bind, Option.some_bind]
      rw [hflag]
      simp [initState, dictLookup, dictInsert, hkey1]
    -- the continuation line
    have hCn_len : ('+' :: spaces 7).length = 8 := by simp [spaces_length]
    have hnotdollarC : '$' ∉ ('+' :: spaces 7) ++ (blocks.drop k).flatten := fun hm =>
      (hcleanC _ hm).1 rfl
    have hpreC : preprocess_line (('+' :: spaces 7) ++ (blocks.drop k).flatten) =
        rstrip (('+' :: spaces 7) ++ (blocks.drop k).flatten) := by
      unfold preprocess_line stripComment
      rw [if_neg hnotdollarC]
    have hneC : (rstrip (('+' :: spaces 7) ++ (blocks.drop k).flatten)).isEmpty = false := by
      cases hre : rstrip (('+' :: spaces 7) ++ (blocks.drop k).flatten) with
      | nil =>
        exfalso
        have := rstrip_eq_nil_imp hre '+' (List.mem_append_left _ (List.mem_cons_self _ _))
        exact absurd this (by decide)
      | cons a l => rfl
    have hncC : ',' ∉ rstrip (('+' :: spaces 7) ++ (blocks.drop k).flatten) := fun hm =>
      (hcleanC _ (mem_rstrip hm)).2.2.1 rfl
    have hpaC : parse_any_line (rstrip (('+' :: spaces 7) ++ (blocks.drop k).flatten)) =
        parse_fixed_field_format_line
          (rstrip (('+' :: spaces 7) ++ (blocks.drop k).flatten)) := by
      unfold parse_any_line
      rw [if_neg hncC]
    have hparseC := parse_fixed_mkLine ('+' :: spaces 7) (blocks.drop k) v2 hCn_len
      (fun b hb => hb8 b (List.drop_subset _ _ hb)) (by omega)
      (fun c hc => ⟨(hcleanC c hc).1, (hcleanC c hc).2.1, (hcleanC c hc).2.2.2⟩) hv2
    rw [hdplen, hv2eq, show (8 : ℕ) - (8 - k) = k by omega] at hparseC
    have hplusStrip : pyStrip ('+' :: spaces 7) = ['+'] := by decide
    rw [hplusStrip] at hparseC
    have hstepC : process_bulk_line
        ⟨[(K, format_bde (pyStrip nameRaw)
            (vs.take k ++ List.replicate (8 - k) (.Text [])))], K, []⟩
        (('+' :: spaces 7) ++ (blocks.drop k).flatten) =
        some ⟨[(K,
          format_bde (pyStrip nameRaw) (vs.take k ++ List.replicate (8 - k) (.Text [])) ++
            '\n' :: format_bde [] (vs.drop k ++ List.replicate k (.Text [])))], K, []⟩ := by
      unfold process_bulk_line
      rw [hpreC, if_neg (by rw [hneC]; simp :
          ¬ (rstrip (('+' :: spaces 7) ++ (blocks.drop k).flatten)).isEmpty = true),
        hpaC, hparseC]
      simp [dictLookup, dictInsert]
    unfold parse_bulk_data
    rw [List.foldlM_cons, hstep1]
    simp only [Option.bind_eq_bind, Option.some_bind, List.foldlM_cons, hstepC,
      List.foldlM_nil, Option.map_some']
    rfl

set_option maxRecDepth 400000 in
unseal Rat.add Rat.mul Rat.inv Rat.sub in
/-- C3 counterexample: the record `SPC 101106 88000043 0 0.0` parsed as a
single fixed-field line versus the same logical record split into its first
line plus a continuation line (holding the trailing blank fields): both
decks yield a single-entry table with the SAME canonical key, but the
post-continuation-removal comparison texts DIFFER — the split form's text
gains the 64 space characters rendered for the continuation line's blank
fields — refuting the claimed text equality. -/
theorem C3_counterexample :
    ((parse_bulk_data ["SPC     101106  880000430       0.0     ".toList]).map
        fun r => r.1.map Prod.fst) =
      ((parse_bulk_data ["SPC     101106  880000430       0.0     ".toList,
          "+       ".toList]).map fun r => r.1.map Prod.fst) ∧
    ((parse_bulk_data ["SPC     101106  880000430       0.0     ".toList]).map
        fun r => r.1.map fun p => remove_continuations p.2) ≠
      ((parse_bulk_data ["SPC     101106  880000430       0.0     ".toList,
          "+       ".toList]).map fun r => r.1.map fun p => remove_continuations p.2) := by
  decide

set_option maxRecDepth 400000 in
unseal Rat.add Rat.mul Rat.inv Rat.sub in
/-- Witness for C3 (amended) at the SPC record, split after its second
field (both designated key fields on the first line). -/
theorem C3_key_stability_witness :
    parse_bulk_data ["SPC     ".toList ++
        ["101106  ".toList, "88000043".toList, "0       ".toList, "0.0     ".toList,
          "        ".toList, "        ".toList, "        ".toList,
          "        ".toList].flatten] =
      some ([("SPC  10110688000043".toList,
        format_bde (pyStrip "SPC     ".toList)
          [.Integer 101106, .Integer 88000043, .Integer 0, .Real 0, .Text [], .Text [],
            .Text [], .Text []])], []) ∧
    parse_bulk_data ["SPC     ".toList ++
        (["101106  ".toList, "88000043".toList, "0       ".toList, "0.0     ".toList,
          "        ".toList, "        ".toList, "        ".toList,
          "        ".toList].take 2).flatten,
        ('+' :: spaces 7) ++
          (["101106  ".toList, "88000043".toList, "0       ".toList, "0.0     ".toList,
            "        ".toList, "        ".toList, "        ".toList,
            "        ".toList].drop 2).flatten] =
      some ([("SPC  10110688000043".toList,
        format_bde (pyStrip "SPC     ".toList)
          (([FieldValue.Integer 101106, .Integer 88000043, .Integer 0, .Real 0, .Text [],
            .Text [], .Text [], .Text []].take 2) ++ List.replicate (8 - 2) (.Text [])) ++
          '\n' :: format_bde []
            (([FieldValue.Integer 101106, .Integer 88000043, .Integer 0, .Real 0, .Text [],
              .Text [], .Text [], .Text []].drop 2) ++
              List.replicate 2 (.Text [])))], []) :=
  C3_key_stability "SPC     ".toList
    ["101106  ".toList, "88000043".toList, "0       ".toList, "0.0     ".toList,
      "        ".toList, "        ".toList, "        ".toList, "        ".toList]
    [.Integer 101106, .Integer 88000043, .Integer 0, .Real 0, .Text [], .Text [], .Text [],
      .Text []]
    "SPC  10110688000043".toList 2
    (by decide) (by decide) (by decide) (by decide) (by decide) (by decide) (by decide)
    (by decide) (by decide) (by decide) (by decide)

/-- C7: if two non-continuation records within one deck derive the same
canonical key, the table built by `parse_bulk_data` holds the later
record's canonicalized text at that key, a non-fatal duplicate-key warning
is surfaced, and parsing does not fail (the result is `some`). -/
theorem C7_duplicate_key_overwrites (l1 l2 n1 n2 k : List Char)
    (fs1 fs2 : List FieldValue)
    (h1e : (preprocess_line l1).isEmpty = false)
    (h2e : (preprocess_line l2).isEmpty = false)
    (hp1 : parse_any_line (preprocess_line l1) = some (n1, fs1, false))
    (hp2 : parse_any_line (preprocess_line l2) = some (n2, fs2, false))
    (hk1 : derive_key n1 fs1 = some k)
    (hk2 : derive_key n2 fs2 = some k) :
    parse_bulk_data [l1, l2] = some ([(k, format_bde n2 fs2)], [k]) := by
  unfold parse_bulk_data
  have hstep1 : process_bulk_line initState l1 =
      some ⟨[(k, format_bde n1 fs1)], k, []⟩ := by
    unfold process_bulk_line
    rw [if_neg (by rw [h1e]; simp : ¬ (preprocess_line l1).isEmpty = true), hp1]
    simp [initState, dictLookup, dictInsert, hk1]
  have hstep2 : process_bulk_line ⟨[(k, format_bde n1 fs1)], k, []⟩ l2 =
      some ⟨[(k, format_bde n2 fs2)], k, [k]⟩ := by
    unfold process_bulk_line
    rw [if_neg (by rw [h2e]; simp : ¬ (preprocess_line l2).isEmpty = true), hp2]
    simp [dictLookup, dictInsert, hk2]
  rw [List.foldlM_cons, hstep1]
  simp only [Option.bind_eq_bind, Option.some_bind, List.foldlM_cons, hstep2,
    List.foldlM_nil, Option.map_some']
  rfl

/-- Witness for C7 at a concrete two-record deck with a shared key. -/
theorem C7_duplicate_key_overwrites_witness :
    parse_bulk_data ["GRID    1       7".toList, "GRID    1       9".toList] =
      some ([("GRID       1".toList,
        format_bde "GRID".toList
          [.Integer 1, .Integer 9, .Text [], .Text [], .Text [], .Text [], .Text [],
            .Text []])],
        ["GRID       1".toList]) :=
  C7_duplicate_key_overwrites "GRID    1       7".toList "GRID    1       9".toList
    "GRID".toList "GRID".toList "GRID       1".toList
    [.Integer 1, .Integer 7, .Text [], .Text [], .Text [], .Text [], .Text [], .Text []]
    [.Integer 1, .Integer 9, .Text [], .Text [], .Text [], .Text [], .Text [], .Text []]
    (by decide) (by decide) (by decide) (by decide) (by decide) (by decide)

/-- Witness for C4 (amended) at a concrete deck. -/
theorem C4_unbalanced_continuation_aborts_witness :
    ((preprocess_line "+CONT   1".toList).isEmpty = false ∧
      parse_any_line (preprocess_line "+CONT   1".toList) =
        some ("+CONT".toList,
          [.Integer 1, .Text [], .Text [], .Text [], .Text [], .Text [], .Text [], .Text []],
          true)) ∧
    parse_bulk_data ["+CONT   1".toList, "GRID    2       3".toList] = none :=
  ⟨⟨by decide, by decide⟩,
    C4_unbalanced_continuation_aborts "+CONT   1".toList ["GRID    2       3".toList]
      "+CONT".toList
      [.Integer 1, .Text [], .Text [], .Text [], .Text [], .Text [], .Text [], .Text []]
      (by decide) (by decide)⟩

/-! ### Order facts for the key comparison and the diff partition (C1) -/

lemma keyLtb_irrefl : ∀ a : List Char, keyLtb a a = false := by
  intro a
  induction a with
  | nil => rfl
  | cons c cs ih => simp [keyLtb, ih]

lemma keyLtb_trichot : ∀ a b : List Char,
    keyLtb a b = true ∨ a = b ∨ keyLtb b a = true := by
  intro a
  induction a with
  | nil =>
    intro b
    cases b with
    | nil => exact Or.inr (Or.inl rfl)
    | cons c cs => exact Or.inl rfl
  | cons c cs ih =>
    intro b
    cases b with
    | nil => exact Or.inr (Or.inr rfl)
    | cons d ds =>
      rcases lt_trichotomy c d with hlt | heq | hgt
      · left; simp [keyLtb, hlt]
      · subst heq
        rcases ih ds with h | h | h
        · left; simp [keyLtb, h]
        · right; left; rw [h]
        · right; right; simp [keyLtb, h]
      · right; right; simp [keyLtb, hgt]

lemma keyLtb_asymm : ∀ {a b : List Char}, keyLtb a b = true → keyLtb b a = false := by
  intro a
  induction a with
  | nil =>
    intro b _
    cases b with
    | nil => rfl
    | cons c cs => rfl
  | cons c cs ih =>
    intro b hab
    cases b with
    | nil => simp [keyLtb] at hab
    | cons d ds =>
      by_cases hlt : c < d
      · have hnd : ¬ d < c := lt_asymm hlt
        simp [keyLtb, hnd, hlt]
      · by_cases hgt : d < c
        · simp [keyLtb, hlt, hgt] at hab
        · have htl : keyLtb cs ds = true := by simpa [keyLtb, hlt, hgt] using hab
          simp [keyLtb, hlt, hgt, ih htl]

lemma keyLtb_trans : ∀ {a b c : List Char},
    keyLtb a b = true → keyLtb b c = true → keyLtb a c = true := by
  intro a
  induction a with
  | nil =>
    intro b c hab hbc
    cases b with
    | nil => simp [keyLtb] at hab
    | cons d ds =>
      cases c with
      | nil => simp [keyLtb] at hbc
      | cons e es => rfl
  | cons x xs ih =>
    intro b c hab hbc
    cases b with
    | nil => simp [keyLtb] at hab
    | cons d ds =>
      cases c with
      | nil => simp [keyLtb] at hbc
      | cons e es =>
        by_cases h1 : x < d
        · rcases lt_trichotomy d e with h2 | h2 | h2
          · have hxe : x < e := lt_trans h1 h2
            simp [keyLtb, hxe]
          · subst h2
            simp [keyLtb, h1]
          · have hnd : ¬ d < e := lt_asymm h2
            simp [keyLtb, hnd, h2] at hbc
        · by_cases h1' : d < x
          · simp [keyLtb, h1, h1'] at hab
          · have hxd : x = d := le_antisymm (not_lt.mp h1') (not_lt.mp h1)
            subst hxd
            have habt : keyLtb xs ds = true := by simpa [keyLtb, h1] using hab
            by_cases h2 : x < e
            · simp [keyLtb, h2]
            · by_cases h3 : e < x
              · simp [keyLtb, h2, h3] at hbc
              · have hbct : keyLtb ds es = true := by simpa [keyLtb, h2, h3] using hbc
                simp [keyLtb, h2, h3, ih habt hbct]

instance : IsTotal (List Char) keyLe where
  total a b := by
    rcases keyLtb_trichot a b with h | h | h
    · exact Or.inl (keyLtb_asymm h)
    · subst h
      exact Or.inl (keyLtb_irrefl a)
    · exact Or.inr (keyLtb_asymm h)

instance : IsTrans (List Char) keyLe where
  trans a b c hab hbc := by
    have hab' : keyLtb b a = false := hab
    have hbc' : keyLtb c b = false := hbc
    show keyLtb c a = false
    by_contra hn
    have hca : keyLtb c a = true := by simpa using hn
    rcases keyLtb_trichot c b with h | h | h
    · simp [hbc'] at h
    · subst h
      simp [hab'] at hca
    · have hba : keyLtb b a = true := keyLtb_trans h hca
      simp [hab'] at hba

lemma keyLtb_of_keyLe_of_ne {a b : List Char} (h1 : keyLe a b) (h2 : a ≠ b) :
    keyLtb a b = true := by
  have h1' : keyLtb b a = false := h1
  rcases keyLtb_trichot a b with h | h | h
  · exact h
  · exact absurd h h2
  · simp [h1'] at h

lemma mem_sortedKeys {k : List Char} {d : List (List Char × List Char)} :
    k ∈ sortedKeys d ↔ k ∈ dictKeys d :=
  (List.perm_insertionSort keyLe (dictKeys d)).mem_iff

lemma sortedKeys_pairwise_ltb {d : List (List Char × List Char)}
    (hnd : (dictKeys d).Nodup) :
    List.Pairwise (fun a b => keyLtb a b = true) (sortedKeys d) := by
  have hs : List.Pairwise keyLe (sortedKeys d) :=
    List.sorted_insertionSort keyLe (dictKeys d)
  have hperm : (sortedKeys d).Perm (dictKeys d) :=
    List.perm_insertionSort keyLe (dictKeys d)
  have hnd' : (sortedKeys d).Nodup := hperm.nodup_iff.mpr hnd
  have hne : List.Pairwise (fun a b : List Char => a ≠ b) (sortedKeys d) := hnd'
  exact (hs.and hne).imp fun h => keyLtb_of_keyLe_of_ne h.1 h.2

lemma dictLookup_isSome_iff {k : List Char} :
    ∀ {d : List (List Char × List Char)},
      (dictLookup k d).isSome = true ↔ k ∈ dictKeys d := by
  intro d
  induction d with
  | nil => simp [dictLookup, dictKeys]
  | cons p r ih =>
    by_cases h : p.1 = k
    · simp [dictLookup, dictKeys, h]
    · have h' : ¬ k = p.1 := fun he => h he.symm
      simp [dictLookup, dictKeys, h, h', ih]

lemma diffStep_foldl (bulk1 bulk2 : List (List Char × List Char)) :
    ∀ (ks : List (List Char))
      (acc : List (List Char) × List (List Char) × List (List Char)),
      ks.foldl (diffStep bulk1 bulk2) acc =
        (acc.1 ++ (ks.filter (changedKeyB bulk1 bulk2)).map
            (fun k => (dictLookup k bulk1).getD []),
         acc.2.1 ++ (ks.filter (changedKeyB bulk1 bulk2)).map
            (fun k => (dictLookup k bulk2).getD []),
         acc.2.2 ++ (ks.filter (missing2B bulk2)).map
            (fun k => (dictLookup k bulk1).getD [])) := by
  intro ks
  induction ks with
  | nil => intro acc; simp
  | cons k ks ih =>
    intro acc
    rw [List.foldl_cons, ih]
    cases hl : dictLookup k bulk2 with
    | none =>
      have hc : changedKeyB bulk1 bulk2 k = false := by
        simp [changedKeyB, hl]
      have hm : missing2B bulk2 k = true := by simp [missing2B, hl]
      simp [diffStep, hl, hc, hm, List.filter_cons]
    | some t2 =>
      have hm : missing2B bulk2 k = false := by simp [missing2B, hl]
      by_cases hne : remove_continuations ((dictLookup k bulk1).getD []) ≠
          remove_continuations t2
      · have hc : changedKeyB bulk1 bulk2 k = true := by
          simp [changedKeyB, hl, hne]
        simp [diffStep, hl, hne, hc, hm, List.filter_cons]
      · rw [not_not] at hne
        have hc : changedKeyB bulk1 bulk2 k = false := by
          simp [changedKeyB, hl, hne]
        simp [diffStep, hl, hne, hc, hm, List.filter_cons]

lemma uniqueStep_foldl (bulk1 bulk2 : List (List Char × List Char)) :
    ∀ (ks : List (List Char)) (acc : List (List Char)),
      ks.foldl (uniqueStep bulk1 bulk2) acc =
        acc ++ (ks.filter (missing1B bulk1)).map
          (fun k => (dictLookup k bulk2).getD []) := by
  intro ks
  induction ks with
  | nil => intro acc; simp
  | cons k ks ih =>
    intro acc
    rw [List.foldl_cons, ih]
    by_cases h : (dictLookup k bulk1).isSome = true
    · have hm : missing1B bulk1 k = false := by simp [missing1B, h]
      simp [uniqueStep, h, hm, List.filter_cons]
    · have hm : missing1B bulk1 k = true := by simp [missing1B, h]
      simp [uniqueStep, h, hm, List.filter_cons]

/-- C1: the table comparison of compare_bulk partitions the canonical keys:
there are ascending key sequences ck (changed, shared by diff1 and diff2 in
lockstep), k1 (left-only) and k2 (right-only) such that the four result
lists are exactly the stored texts of those keys, and every key of either
table falls in exactly one of changed, left-only, right-only, or identical
(present in both with equal continuation-stripped texts and absent from all
three outputs). -/
theorem C1_compare_partition (t1 t2 : List (List Char × List Char))
    (h1 : (dictKeys t1).Nodup) (h2 : (dictKeys t2).Nodup) :
    ∃ ck k1 k2 : List (List Char),
      compare_tables t1 t2 =
        (ck.map (fun k => (dictLookup k t1).getD []),
         ck.map (fun k => (dictLookup k t2).getD []),
         k1.map (fun k => (dictLookup k t1).getD []),
         k2.map (fun k => (dictLookup k t2).getD [])) ∧
      List.Pairwise (fun a b => keyLtb a b = true) ck ∧
      List.Pairwise (fun a b => keyLtb a b = true) k1 ∧
      List.Pairwise (fun a b => keyLtb a b = true) k2 ∧
      (∀ k, k ∈ dictKeys t1 ∨ k ∈ dictKeys t2 →
        (k ∈ ck ∧ k ∉ k1 ∧ k ∉ k2 ∧
           remove_continuations ((dictLookup k t1).getD []) ≠
             remove_continuations ((dictLookup k t2).getD [])) ∨
        (k ∉ ck ∧ k ∈ k1 ∧ k ∉ k2 ∧ dictLookup k t2 = none) ∨
        (k ∉ ck ∧ k ∉ k1 ∧ k ∈ k2 ∧ dictLookup k t1 = none) ∨
        (k ∉ ck ∧ k ∉ k1 ∧ k ∉ k2 ∧
           (dictLookup k t1).isSome = true ∧ (dictLookup k t2).isSome = true ∧
           remove_continuations ((dictLookup k t1).getD []) =
             remove_continuations ((dictLookup k t2).getD []))) := by
  refine ⟨(sortedKeys t1).filter (changedKeyB t1 t2),
          (sortedKeys t1).filter (missing2B t2),
          (sortedKeys t2).filter (missing1B t1), ?_, ?_, ?_, ?_, ?_⟩
  · unfold compare_tables
    rw [diffStep_foldl, uniqueStep_foldl]
    simp
  · exact (sortedKeys_pairwise_ltb h1).sublist (List.filter_sublist _)
  · exact (sortedKeys_pairwise_ltb h1).sublist (List.filter_sublist _)
  · exact (sortedKeys_pairwise_ltb h2).sublist (List.filter_sublist _)
  · intro k hk
    have hmem1 : k ∈ sortedKeys t1 ↔ (dictLookup k t1).isSome = true :=
      mem_sortedKeys.trans dictLookup_isSome_iff.symm
    have hmem2 : k ∈ sortedKeys t2 ↔ (dictLookup k t2).isSome = true :=
      mem_sortedKeys.trans dictLookup_isSome_iff.symm
    by_cases s1 : (dictLookup k t1).isSome = true
    · by_cases s2 : (dictLookup k t2).isSome = true
      · by_cases heq : remove_continuations ((dictLookup k t1).getD []) =
            remove_continuations ((dictLookup k t2).getD [])
        · refine Or.inr (Or.inr (Or.inr ⟨?_, ?_, ?_, s1, s2, heq⟩))
          · intro hmem
            have hpred := (List.mem_filter.mp hmem).2
            simp [changedKeyB, heq] at hpred
          · intro hmem
            have hpred := (List.mem_filter.mp hmem).2
            simp [missing2B, s2] at hpred
          · intro hmem
            have hpred := (List.mem_filter.mp hmem).2
            simp [missing1B, s1] at hpred
        · refine Or.inl ⟨?_, ?_, ?_, heq⟩
          · exact List.mem_filter.mpr ⟨hmem1.mpr s1, by simp [changedKeyB, s2, heq]⟩
          · intro hmem
            have hpred := (List.mem_filter.mp hmem).2
            simp [missing2B, s2] at hpred
          · intro hmem
            have hpred := (List.mem_filter.mp hmem).2
            simp [missing1B, s1] at hpred
      · have hnone : dictLookup k t2 = none := Option.not_isSome_iff_eq_none.mp s2
        refine Or.inr (Or.inl ⟨?_, ?_, ?_, hnone⟩)
        · intro hmem
          have hpred := (List.mem_filter.mp hmem).2
          simp [changedKeyB, hnone] at hpred
        · exact List.mem_filter.mpr ⟨hmem1.mpr s1, by simp [missing2B, hnone]⟩
        · intro hmem
          exact s2 (hmem2.mp (List.mem_filter.mp hmem).1)
    · by_cases s2 : (dictLookup k t2).isSome = true
      · have hnone : dictLookup k t1 = none := Option.not_isSome_iff_eq_none.mp s1
        refine Or.inr (Or.inr (Or.inl ⟨?_, ?_, ?_, hnone⟩))
        · intro hmem
          exact s1 (hmem1.mp (List.mem_filter.mp hmem).1)
        · intro hmem
          exact s1 (hmem1.mp (List.mem_filter.mp hmem).1)
        · exact List.mem_filter.mpr ⟨hmem2.mpr s2, by simp [missing1B, hnone]⟩
      · exfalso
        rcases hk with hk | hk
        · exact s1 (dictLookup_isSome_iff.mpr hk)
        · exact s2 (dictLookup_isSome_iff.mpr hk)

/-- Witness for C1: the partition theorem applied to a concrete pair of
tables containing a changed key, an identical key, a left-only key and a
right-only key. -/
theorem C1_compare_partition_witness :
    ((dictKeys exTable1).Nodup ∧ (dictKeys exTable2).Nodup) ∧
    (∃ ck k1 k2 : List (List Char),
      compare_tables exTable1 exTable2 =
        (ck.map (fun k => (dictLookup k exTable1).getD []),
         ck.map (fun k => (dictLookup k exTable2).getD []),
         k1.map (fun k => (dictLookup k exTable1).getD []),
         k2.map (fun k => (dictLookup k exTable2).getD [])) ∧
      List.Pairwise (fun a b => keyLtb a b = true) ck ∧
      List.Pairwise (fun a b => keyLtb a b = true) k1 ∧
      List.Pairwise (fun a b => keyLtb a b = true) k2 ∧
      (∀ k, k ∈ dictKeys exTable1 ∨ k ∈ dictKeys exTable2 →
        (k ∈ ck ∧ k ∉ k1 ∧ k ∉ k2 ∧
           remove_continuations ((dictLookup k exTable1).getD []) ≠
             remove_continuations ((dictLookup k exTable2).getD [])) ∨
        (k ∉ ck ∧ k ∈ k1 ∧ k ∉ k2 ∧ dictLookup k exTable2 = none) ∨
        (k ∉ ck ∧ k ∉ k1 ∧ k ∈ k2 ∧ dictLookup k exTable1 = none) ∨
        (k ∉ ck ∧ k ∉ k1 ∧ k ∉ k2 ∧
           (dictLookup k exTable1).isSome = true ∧
           (dictLookup k exTable2).isSome = true ∧
           remove_continuations ((dictLookup k exTable1).getD []) =
             remove_continuations ((dictLookup k exTable2).getD [])))) :=
  ⟨⟨by decide, by decide⟩,
   C1_compare_partition exTable1 exTable2 (by decide) (by decide)⟩

end NastranDiff
